import Mathlib

/-!
Verification of the constant-comparative-analysis pipeline core.

This file gives a shallow embedding of the pipeline's core functions —
`src/worker.py` (`run_job`'s incident-coding loop, ordering restoration,
prior-context window, quote post-processing, coder clamping),
`src/agents/sdk.py` (`AgentSDK.run_json`, `diagnostics`,
`_parse_json_flexible`) and `src/agents/synth_agent.py`
(`synthesize_incident_patterns`) — and proves the spec's testable
properties about them.

Python dicts are embedded as association lists with Python's semantics
(updating an existing key keeps its position, a new key is appended);
Python machine-level details that the code never relies on (unicode
classes beyond ASCII, float values) are modelled on the fragment the
code exercises, as noted at each definition.
-/

namespace CCA

/-! ### Python string primitives

`str.strip()` removes leading and trailing whitespace; on the ASCII
fragment the pipeline handles, Python's whitespace class is
space, tab, newline, carriage return, vertical tab and form feed —
the same set as the regex class `\s`. -/

def pyWs (c : Char) : Bool :=
  c = ' ' || c = '\t' || c = '\n' || c = '\r' || c = '\x0b' || c = '\x0c'

/-- Python `str.strip()` on a character list: drop whitespace from both ends. -/
def pyStripL (l : List Char) : List Char :=
  ((l.dropWhile pyWs).reverse.dropWhile pyWs).reverse

/-- Python `str.strip()`. -/
def pyStrip (s : String) : String := ⟨pyStripL s.data⟩

/-- Python `l[-n:]`: the last `min n (length l)` elements. -/
def lastN (l : List α) (n : Nat) : List α := l.drop (l.length - n)

theorem length_lastN_le (l : List α) (n : Nat) : (lastN l n).length ≤ n := by
  simp only [lastN, List.length_drop]
  omega

theorem lastN_suffix (l : List α) (n : Nat) : lastN l n <:+ l :=
  List.drop_suffix _ _

/-! ### JSON values and a model of Python `json.loads`

`json.loads` is external library code; it is modelled here on the JSON
grammar it implements (RFC 8259 with Python's strict-mode rules:
unescaped control characters in strings are rejected, object keys are
strings, duplicate keys keep the last value in the key's first
position, exactly like a Python dict built by repeated assignment).
Float-valued numbers are carried as their raw lexeme — no claim in this
file inspects a float value — and the nonstandard `NaN`/`Infinity`
extensions and `\u` surrogate pairing are omitted; no input in this
development exercises them. -/

inductive JVal where
  | null
  | bool (b : Bool)
  | num (n : Int)
  | fnum (raw : String)
  | str (s : String)
  | arr (elems : List JVal)
  | obj (fields : List (String × JVal))
deriving Repr, Inhabited

/-- Association-list lookup with Python-dict semantics (first match; keys
are unique by construction whenever built through `alistInsert`). -/
def alistLookup [DecidableEq κ] : List (κ × α) → κ → Option α
  | [], _ => none
  | e :: m, k => if e.1 = k then some e.2 else alistLookup m k

/-- Association-list update with Python-dict semantics: an existing key is
updated in place (its position is kept), a new key is appended. -/
def alistInsert [DecidableEq κ] : List (κ × α) → κ → α → List (κ × α)
  | [], k, v => [(k, v)]
  | e :: m, k, v => if e.1 = k then (k, v) :: m else e :: alistInsert m k v

/-- JSON whitespace accepted between tokens by `json.loads`. -/
def jWs (c : Char) : Bool := c = ' ' || c = '\t' || c = '\n' || c = '\r'

def jSkip (l : List Char) : List Char := l.dropWhile jWs

def jDigit (c : Char) : Bool := '0' ≤ c && c ≤ '9'

def jTakeDigits : List Char → List Char × List Char
  | [] => ([], [])
  | c :: cs =>
    if jDigit c then
      let p := jTakeDigits cs
      (c :: p.1, p.2)
    else ([], c :: cs)

def jDigitsToNat (ds : List Char) : Nat :=
  ds.foldl (fun acc c => acc * 10 + (c.toNat - '0'.toNat)) 0

/-- One string-escape step of the JSON decoder (`\uXXXX` handled below). -/
def jEscape : Char → Option Char
  | '"' => some '"'
  | '\\' => some '\\'
  | '/' => some '/'
  | 'b' => some '\x08'
  | 'f' => some '\x0c'
  | 'n' => some '\n'
  | 'r' => some '\r'
  | 't' => some '\t'
  | _ => none

def jHexDigit (c : Char) : Option Nat :=
  let n := c.toNat
  if 48 ≤ n ∧ n ≤ 57 then some (n - 48)
  else if 97 ≤ n ∧ n ≤ 102 then some (n - 87)
  else if 65 ≤ n ∧ n ≤ 70 then some (n - 55)
  else none

/-- Decode the body of a JSON string literal up to its closing quote.
Unescaped control characters are rejected, as in Python's strict mode. -/
def jParseString : List Char → Option (List Char × List Char)
  | [] => none
  | '"' :: rest => some ([], rest)
  | '\\' :: 'u' :: a :: b :: c :: d :: rest =>
    match jHexDigit a, jHexDigit b, jHexDigit c, jHexDigit d with
    | some va, some vb, some vc, some vd =>
      match jParseString rest with
      | some (body, rest2) =>
        some (Char.ofNat (((va * 16 + vb) * 16 + vc) * 16 + vd) :: body, rest2)
      | none => none
    | _, _, _, _ => none
  | '\\' :: e :: rest =>
    match jEscape e with
    | some ch =>
      match jParseString rest with
      | some (body, rest2) => some (ch :: body, rest2)
      | none => none
    | none => none
  | c :: rest =>
    if c.toNat < 32 then none
    else
      match jParseString rest with
      | some (body, rest2) => some (c :: body, rest2)
      | none => none

/-- Decode a JSON number token. Python's grammar: `-?(0|[1-9]\d*)` with an
optional fraction and exponent; a bare integer decodes to `int`, anything
with a fraction or exponent to `float` (kept as its raw lexeme). -/
def jParseNumber (l : List Char) : Option (JVal × List Char) :=
  let (neg, l1) := match l with
    | '-' :: r => (true, r)
    | _ => (false, l)
  match l1 with
  | [] => none
  | c :: r =>
    if ¬ jDigit c then none
    else
      let (intDs, l2) :=
        if c = '0' then ([c], r)
        else
          let p := jTakeDigits r
          (c :: p.1, p.2)
      let (fracDs, l3) := match l2 with
        | '.' :: r2 =>
          let p := jTakeDigits r2
          (p.1, p.2)
        | _ => ([], l2)
      let isFracBad := match l2 with
        | '.' :: _ => fracDs.isEmpty
        | _ => false
      let (expPart, hasExp, expBad, l4) : List Char × Bool × Bool × List Char :=
        match l3 with
        | 'e' :: r3 =>
          let (sgn, r4) : List Char × List Char := match r3 with
            | '+' :: r5 => (['+'], r5)
            | '-' :: r5 => (['-'], r5)
            | _ => ([], r3)
          let p := jTakeDigits r4
          ('e' :: sgn ++ p.1, true, p.1.isEmpty, p.2)
        | 'E' :: r3 =>
          let (sgn, r4) : List Char × List Char := match r3 with
            | '+' :: r5 => (['+'], r5)
            | '-' :: r5 => (['-'], r5)
            | _ => ([], r3)
          let p := jTakeDigits r4
          ('E' :: sgn ++ p.1, true, p.1.isEmpty, p.2)
        | _ => ([], false, false, l3)
      if isFracBad || expBad then none
      else if fracDs.isEmpty ∧ ¬ hasExp then
        let v : Int := (jDigitsToNat intDs : Int)
        some (JVal.num (if neg then -v else v), l4)
      else
        let rawChars :=
          (if neg then ['-'] else []) ++ intDs ++
            (match l2 with
              | '.' :: _ => '.' :: fracDs
              | _ => []) ++ expPart
        some (JVal.fnum ⟨rawChars⟩, l4)

mutual

/-- Decode one JSON value (fuel-indexed; the callers supply ample fuel). -/
def jParseValue (fuel : Nat) (l : List Char) : Option (JVal × List Char) :=
  match fuel with
  | 0 => none
  | fuel + 1 =>
    match l with
    | 'n' :: 'u' :: 'l' :: 'l' :: r => some (JVal.null, r)
    | 't' :: 'r' :: 'u' :: 'e' :: r => some (JVal.bool true, r)
    | 'f' :: 'a' :: 'l' :: 's' :: 'e' :: r => some (JVal.bool false, r)
    | '"' :: r =>
      match jParseString r with
      | some (body, rest) => some (JVal.str ⟨body⟩, rest)
      | none => none
    | '[' :: r =>
      match jSkip r with
      | ']' :: rest => some (JVal.arr [], rest)
      | r2 =>
        match jParseElems fuel r2 with
        | some (es, rest) => some (JVal.arr es, rest)
        | none => none
    | '{' :: r =>
      match jSkip r with
      | '}' :: rest => some (JVal.obj [], rest)
      | r2 =>
        match jParseFields fuel r2 with
        | some (fs, rest) =>
          some (JVal.obj (fs.foldl (fun d kv => alistInsert d kv.1 kv.2) []), rest)
        | none => none
    | _ => jParseNumber l

/-- Decode the elements of a non-empty JSON array (after `[`). -/
def jParseElems (fuel : Nat) (l : List Char) : Option (List JVal × List Char) :=
  match fuel with
  | 0 => none
  | fuel + 1 =>
    match jParseValue fuel l with
    | none => none
    | some (v, r) =>
      match jSkip r with
      | ',' :: r2 =>
        match jParseElems fuel (jSkip r2) with
        | some (vs, rest) => some (v :: vs, rest)
        | none => none
      | ']' :: rest => some ([v], rest)
      | _ => none

/-- Decode the members of a non-empty JSON object (after `{`). -/
def jParseFields (fuel : Nat) (l : List Char) :
    Option (List (String × JVal) × List Char) :=
  match fuel with
  | 0 => none
  | fuel + 1 =>
    match l with
    | '"' :: r =>
      match jParseString r with
      | none => none
      | some (keyBody, r1) =>
        match jSkip r1 with
        | ':' :: r2 =>
          match jParseValue fuel (jSkip r2) with
          | none => none
          | some (v, r3) =>
            match jSkip r3 with
            | ',' :: r4 =>
              match jParseFields fuel (jSkip r4) with
              | some (fs, rest) => some ((⟨keyBody⟩, v) :: fs, rest)
              | none => none
            | '}' :: rest => some ([(⟨keyBody⟩, v)], rest)
            | _ => none
        | _ => none
    | _ => none

end

/-- Model of Python `json.loads` on a character list: decode one value and
require only trailing whitespace after it, else fail (in Python: raise
`JSONDecodeError` — always caught by the callers modelled below). -/
def pyJsonLoadsL (l : List Char) : Option JVal :=
  match jParseValue (2 * l.length + 2) (jSkip l) with
  | some (v, rest) => if jSkip rest = [] then some v else none
  | none => none

/-- Model of Python `json.loads` on a string. -/
def pyJsonLoads (s : String) : Option JVal := pyJsonLoadsL s.data

/-! ### `_parse_json_flexible` (src/agents/sdk.py lines 147-174)

The fenced-block search embeds `re.search` of
`r"```(?:json)?\n(.*?)\n```"` with `IGNORECASE | DOTALL`: the leftmost
position where the whole pattern matches wins, and the lazy group takes
the shortest body, i.e. everything up to the first later `"\n```"`.
The two alternatives of `(?:json)?\n` are mutually exclusive at any one
position (one requires `j`/`J` after the backticks, the other `\n`),
so no further backtracking arises. -/

/-- Case-insensitive prefix test (`re.IGNORECASE` on ASCII letters). -/
def ciPrefixOf : List Char → List Char → Bool
  | [], _ => true
  | _ :: _, [] => false
  | p :: ps, c :: cs => (c.toLower = p.toLower) && ciPrefixOf ps cs

/-- If `l` begins with ``` ``` ``` plus an optional case-insensitive
`json` and a newline, return the remainder (where the lazy group starts). -/
def fenceOpenRest (l : List Char) : Option (List Char) :=
  if ['`', '`', '`'].isPrefixOf l then
    let r := l.drop 3
    if ciPrefixOf ['j', 's', 'o', 'n'] r then
      match r.drop 4 with
      | '\n' :: body => some body
      | _ => none
    else
      match r with
      | '\n' :: body => some body
      | _ => none
  else none

/-- Split `l` at the first occurrence of `"\n```"`, returning the part
before it (the lazy group's shortest match); `none` when never closed. -/
def splitAtFenceClose : List Char → Option (List Char)
  | [] => none
  | c :: cs =>
    if ['\n', '`', '`', '`'].isPrefixOf (c :: cs) then some []
    else
      match splitAtFenceClose cs with
      | some body => some (c :: body)
      | none => none

/-- `re.search` for the fenced-block pattern: the first start position
where both the opening and a later closing match; yields group 1. -/
def findFenceBody : List Char → Option (List Char)
  | [] => none
  | c :: cs =>
    match fenceOpenRest (c :: cs) with
    | some rest =>
      match splitAtFenceClose rest with
      | some body => some body
      | none => findFenceBody cs
    | none => findFenceBody cs

/-- The empty mapping `{}` returned by every fallback exit. -/
def jEmptyObj : JVal := JVal.obj []

/-- Python `t.find(c)` when the character occurs (else `none` for `-1`). -/
def firstIdx (c : Char) (l : List Char) : Option Nat :=
  l.findIdx? (fun x => x = c)

/-- Python `t.rfind(c)` when the character occurs (else `none` for `-1`). -/
def lastIdx (c : Char) (l : List Char) : Option Nat :=
  (l.reverse.findIdx? (fun x => x = c)).map (fun i => l.length - 1 - i)

/-- The span `t[start:end+1]` from the first `{` to the last `}`, provided
`0 <= start < end` (sdk.py lines 166-169). -/
def braceSpan (t : List Char) : Option (List Char) :=
  match firstIdx '{' t, lastIdx '}' t with
  | some s, some e => if s < e then some ((t.drop s).take (e - s + 1)) else none
  | _, _ => none

/-- Fallback (c)/(d): parse the outer-brace span, else the empty mapping. -/
def flexBrace (t : List Char) : JVal :=
  match (braceSpan t).bind pyJsonLoadsL with
  | some v => v
  | none => jEmptyObj

/-- The direct-JSON guard of fallback (b):
`(t.startswith("{") and t.endswith("}")) or (t.startswith("[") and t.endswith("]"))`. -/
def directDelims (t : List Char) : Bool :=
  (t.head? = some '{' && t.getLast? = some '}') ||
    (t.head? = some '[' && t.getLast? = some ']')

/-- Fallbacks (b)-(d): try the whole trimmed response when delimited,
then the outer-brace span, then the empty mapping. -/
def flexDirect (t : List Char) : JVal :=
  if directDelims t then
    match pyJsonLoadsL t with
    | some v => v
    | none => flexBrace t
  else flexBrace t

/-- Fallback (a) as one step: the fenced block's stripped body when a
fenced block is present and its body parses (the `try/except: pass`
around `json.loads(body)` makes parse failure fall through). -/
def fenceParsed (t : List Char) : Option JVal :=
  (findFenceBody t).bind (fun body => pyJsonLoadsL (pyStripL body))

/-- `_parse_json_flexible` (sdk.py lines 147-174): `""` (Python falsy text)
yields `{}`; otherwise strip, then fallbacks (a) fenced block,
(b) whole delimited response, (c) outer-brace span, (d) `{}`. -/
def parseJsonFlexible (text : String) : JVal :=
  if text = "" then jEmptyObj
  else
    match fenceParsed (pyStripL text.data) with
    | some v => v
    | none => flexDirect (pyStripL text.data)

/-! ### `_trim_to_sentences` (src/worker.py lines 203-216)

The sentence-ender regex is `[.!?](?=[\)\]\"'”’]*\s|$)`: one of `.!?`
followed (without consuming) by a run of closing quotes/brackets and
a whitespace character, or standing at the end of the string. -/

def isEnderChar (c : Char) : Bool := c = '.' || c = '!' || c = '?'

def isCloser (c : Char) : Bool :=
  c = ')' || c = ']' || c = '"' || c = '\'' || c = '”' || c = '’'

/-- The lookahead alternative `[\)\]\"'”’]*\s`: a (possibly empty) run of
closers followed by one whitespace character. -/
def closersThenWs : List Char → Bool
  | [] => false
  | c :: cs => if pyWs c then true else if isCloser c then closersThenWs cs else false

/-- The whole lookahead `(?=[\)\]\"'”’]*\s|$)` applied to the characters
after the candidate ender (the string is stripped, so `$` only matches
at its very end). -/
def lookaheadOk (rest : List Char) : Bool := rest.isEmpty || closersThenWs rest

/-- Does a sentence-ender match of the regex start at index `i` of `t`? -/
def isEnderAt (t : List Char) (i : Nat) : Bool :=
  match t.drop i with
  | [] => false
  | c :: rest => isEnderChar c && lookaheadOk rest

/-- The start indices of all matches, in order (`re.finditer`). -/
def enderPositions (t : List Char) : List Nat :=
  (List.range t.length).filter (fun i => isEnderAt t i)

/-- `_trim_to_sentences` on a character list. `maxSentences = 0` mirrors
Python's negative indexing (`enders[-1]`), reachable only when the ender
count exceeds the limit. -/
def trimToSentencesL (l : List Char) (maxSentences : Nat) : List Char :=
  if (pyStripL l).isEmpty then pyStripL l
  else if (enderPositions (pyStripL l)).isEmpty then pyStripL l
  else if (enderPositions (pyStripL l)).length ≤ maxSentences then pyStripL l
  else
    pyStripL ((pyStripL l).take
      ((enderPositions (pyStripL l)).getD
        (if maxSentences = 0 then (enderPositions (pyStripL l)).length - 1
         else maxSentences - 1) 0 + 1))

/-- `_trim_to_sentences` (worker.py lines 203-216). -/
def trimToSentences (s : String) (maxSentences : Nat) : String :=
  ⟨trimToSentencesL s.data maxSentences⟩

/-! ### Segments and the per-coder incident map (src/worker.py)

Incident notes are the per-segment results of the IncidentCoding stage;
`run_job` cleans every note in place (worker.py lines 301-311: the
expected transcript and segment number are forced onto it and its labels
are stripped and emptied of blanks) before merging it, so notes are
embedded with their typed, cleaned shape. -/

structure IncidentNote where
  transcript : String
  segmentNumber : Int
  labels : List String
  analyticMemo : String
deriving Repr, DecidableEq

abbrev SegKey := String × Int

/-- `_segment_key` (worker.py lines 240-246) on a cleaned note. -/
def noteKey (n : IncidentNote) : SegKey := (n.transcript, n.segmentNumber)

/-- The coder's `incident_map` dict, keyed by segment key. -/
abbrev IncidentMap := List (SegKey × IncidentNote)

def mapLookup (m : IncidentMap) (k : SegKey) : Option IncidentNote :=
  alistLookup m k

def mapInsert (m : IncidentMap) (k : SegKey) (v : IncidentNote) : IncidentMap :=
  alistInsert m k v

/-- The merge of one segment result (worker.py lines 312-314):
`if key not in incident_map or not incident_map[key].get("labels"):
incident_map[key] = note`. -/
def mergeNote (m : IncidentMap) (note : IncidentNote) : IncidentMap :=
  match mapLookup m (noteKey note) with
  | none => mapInsert m (noteKey note) note
  | some old => if old.labels.isEmpty then mapInsert m (noteKey note) note else m

/-- The incident map after merging a sequence of (cleaned) segment
results, in whatever order they were produced. -/
def buildIncidentMap (notes : List IncidentNote) : IncidentMap :=
  notes.foldl mergeNote []

structure Segment where
  transcript : String
  segmentNumber : Int
  text : String
deriving Repr, DecidableEq

/-- `_segment_key` applied to a segment dict. -/
def segKey (s : Segment) : SegKey := (s.transcript, s.segmentNumber)

/-- `all_segments` as emitted (worker.py lines 178-184 with
`VectorIndex.add_transcript`, vector_store.py lines 33-49): transcripts
in upload order, segments numbered `1..n` in text order within each.
Only the keys matter for ordering claims. -/
def emitSegKeys (uploads : List (String × Nat)) : List SegKey :=
  (uploads.map (fun u => (List.range' 1 u.2).map (fun i => (u.1, Int.ofNat i)))).flatten

/-- `ordered_keys` (worker.py line 327). -/
def orderedKeys (segs : List Segment) : List SegKey := segs.map segKey

/-- `incident_records` (worker.py line 328):
`[incident_map[key] for key in ordered_keys if key in incident_map]`. -/
def extractRecords (segs : List Segment) (m : IncidentMap) : List IncidentNote :=
  (orderedKeys segs).filterMap (fun k => mapLookup m k)

/-! ### The prior-incident context window (worker.py lines 258, 315-325) -/

structure CtxEntry where
  label : String
  transcript : String
  segmentNumber : Int
  analyticMemo : String
deriving Repr, DecidableEq

/-- The entries appended for one merged note: one per (cleaned) label
(worker.py lines 315-323). -/
def ctxEntriesOfNote (n : IncidentNote) : List CtxEntry :=
  n.labels.map (fun l => ⟨l, n.transcript, n.segmentNumber, n.analyticMemo⟩)

/-- One chunk iteration's effect on `prior_incident_context`: append every
note's label entries, then truncate to the last 60 when over the cap
(worker.py lines 315-325). -/
def stepWindow (w : List CtxEntry) (notes : List IncidentNote) : List CtxEntry :=
  let w2 := w ++ (notes.map ctxEntriesOfNote).flatten
  if 60 < w2.length then lastN w2 60 else w2

/-- The window state entering chunk `i` (0-based): the fold of the first
`i` chunk iterations from the empty initial window (worker.py line 258). -/
def windowBefore (chunks : List (List IncidentNote)) (i : Nat) : List CtxEntry :=
  (chunks.take i).foldl stepWindow []

/-- `prior_incident_context[-20:]`, the slice passed to each
incident-coding call (worker.py line 280). -/
def exposedWindow (w : List CtxEntry) : List CtxEntry := lastN w 20

/-! ### Quote-grounding post-processing (worker.py lines 351-385) -/

/-- One row of the quote-batch reply `{"quotes_by_category":
[{"index": int, "quotes": [str]}]}`, with `int(row.get("index", -1))`
already applied. -/
structure QuoteRow where
  idx : Int
  quotes : List String
deriving Repr, DecidableEq

/-- `[str(q).strip() for q in (row.get("quotes") or []) if str(q).strip()]`
(worker.py line 378). -/
def cleanRow (r : QuoteRow) : List String :=
  (r.quotes.map pyStrip).filter (fun q => q ≠ "")

/-- The `by_cat` dict comprehension (worker.py lines 377-380); a repeated
index overwrites, as in a Python dict comprehension. -/
def buildByCat (rows : List QuoteRow) : List (Int × List String) :=
  rows.foldl (fun d r => alistInsert d r.idx (cleanRow r)) []

/-- `cat["supporting_quotes"]` for the category at `idx` (worker.py lines
381-385): take the first 3 cleaned quotes, trim each to ≤ 3 sentences,
drop any that is empty after trimming. No substring-of-context test is
performed anywhere in this step. -/
def supportingQuotes (rows : List QuoteRow) (idx : Int) : List String :=
  let qlist := ((alistLookup (buildByCat rows) idx).getD []).take 3
  (qlist.map (fun q => trimToSentences q 3)).filter (fun q => pyStrip q ≠ "")

/-! ### The Generative Service Client (src/agents/sdk.py)

Backend calls (`client.chat.completions.create`) are modelled as an
oracle `Backend : Nat → CallOutcome` indexed by the number of calls
already issued: a call either raises (network error, timeout, HTTP
failure — all surface as exceptions from `create`) or returns a message
content (Python `None` content is `reply none`). The `user`-prompt
strengthening appended after each failed attempt (sdk.py line 140) does
not influence the oracle and is not tracked. Diagnostic message texts
are summarised; no claim inspects them. -/

inductive CallOutcome where
  | reply (content : Option String)
  | exn (msg : String)
deriving Repr

def CallOutcome.isExn : CallOutcome → Bool
  | .exn _ => true
  | .reply _ => false

abbrev Backend := Nat → CallOutcome

/-- The mutable diagnostic fields of `AgentSDK` (sdk.py lines 24-25). -/
structure SdkState where
  lastError : Option String
  lastRaw : Option String
deriving Repr, DecidableEq

def initState : SdkState := ⟨none, none⟩

/-- `isinstance(data, dict) and data` (sdk.py lines 91, 136). -/
def isTruthyDict : JVal → Bool
  | JVal.obj l => !l.isEmpty
  | _ => false

def jIsObj : JVal → Bool
  | JVal.obj _ => true
  | _ => false

/-- The chat-path fallback call without `response_format` (sdk.py lines
124-137): on success parse flexibly and return only a non-empty dict; a
raised exception is caught by the outer handler (line 138). -/
def chatFallbackCall (b : Backend) (k : Nat) (st : SdkState) :
    Option JVal × SdkState :=
  match b k with
  | .exn msg => (none, { st with lastError := some ("chat path error: " ++ msg) })
  | .reply c =>
    if isTruthyDict (parseJsonFlexible (c.getD "")) then
      (some (parseJsonFlexible (c.getD "")), { st with lastRaw := some (c.getD "") })
    else (none, { st with lastRaw := some (c.getD "") })

/-- One iteration of the chat-completions retry loop (sdk.py lines
99-139): the json-format call; on its exception — including a
`json.loads` failure on its reply — fall back to the plain call. A
reply that strips to empty neither returns nor falls back. The `Nat`
component counts backend calls issued (1 or 2). -/
def chatIter (b : Backend) (k : Nat) (st : SdkState) :
    Option JVal × SdkState × Nat :=
  match b k with
  | .exn msg =>
    ((chatFallbackCall b (k + 1)
        { st with lastError := some ("chat json_format unsupported, fallback: " ++ msg) }).1,
     (chatFallbackCall b (k + 1)
        { st with lastError := some ("chat json_format unsupported, fallback: " ++ msg) }).2,
     2)
  | .reply c =>
    if pyStrip (c.getD "") ≠ "" then
      match pyJsonLoads (c.getD "") with
      | some v => (some v, { st with lastRaw := some (c.getD "") }, 1)
      | none =>
        ((chatFallbackCall b (k + 1)
            { lastRaw := some (c.getD ""), lastError := some "chat json_format unsupported, fallback: JSONDecodeError" }).1,
         (chatFallbackCall b (k + 1)
            { lastRaw := some (c.getD ""), lastError := some "chat json_format unsupported, fallback: JSONDecodeError" }).2,
         2)
    else (none, { st with lastRaw := some (c.getD "") }, 1)

/-- The `for i in range(max(1, attempts))` loop (sdk.py line 99), ending
with `return {}` (line 141) on exhaustion. -/
def chatLoop (b : Backend) (iters k : Nat) (st : SdkState) :
    JVal × SdkState × Nat :=
  match iters with
  | 0 => (jEmptyObj, st, 0)
  | n + 1 =>
    match chatIter b k st with
    | (some v, st1, used) => (v, st1, used)
    | (none, st1, used) =>
      ((chatLoop b n (k + used) st1).1, (chatLoop b n (k + used) st1).2.1,
       used + (chatLoop b n (k + used) st1).2.2)

/-- The Agents-SDK path (sdk.py lines 55-94), taken when `self._agents`
was constructed: json-format call (an empty/None content returns `{}`
at once, line 76); on exception fall back to a plain call whose
non-empty-dict flexible parse returns, and otherwise fall through to
the chat path. -/
def agentsStep (b : Backend) (k : Nat) (st : SdkState) :
    Option JVal × SdkState × Nat :=
  match b k with
  | .exn msg =>
    match b (k + 1) with
    | .exn msg2 => (none, { st with lastError := some ("agents/chat path error: " ++ msg2) }, 2)
    | .reply c2 =>
      if isTruthyDict (parseJsonFlexible (c2.getD "")) then
        (some (parseJsonFlexible (c2.getD "")),
         { lastError := some ("agents json_format unsupported, fallback: " ++ msg), lastRaw := some (c2.getD "") }, 2)
      else
        (none,
         { lastError := some ("agents json_format unsupported, fallback: " ++ msg), lastRaw := some (c2.getD "") }, 2)
  | .reply c =>
    if c.getD "" = "" then (some jEmptyObj, { st with lastRaw := some (c.getD "") }, 1)
    else
      match pyJsonLoads (c.getD "") with
      | some v => (some v, { st with lastRaw := some (c.getD "") }, 1)
      | none =>
        match b (k + 1) with
        | .exn msg2 =>
          (none,
           { lastRaw := some (c.getD ""), lastError := some ("agents/chat path error: " ++ msg2) }, 2)
        | .reply c2 =>
          if isTruthyDict (parseJsonFlexible (c2.getD "")) then
            (some (parseJsonFlexible (c2.getD "")),
             { lastError := some "agents json_format unsupported, fallback: JSONDecodeError", lastRaw := some (c2.getD "") }, 2)
          else
            (none,
             { lastError := some "agents json_format unsupported, fallback: JSONDecodeError", lastRaw := some (c2.getD "") }, 2)

/-- `AgentSDK.run_json` (sdk.py lines 42-141). `hasAgents`/`hasClient`
reflect which SDK objects `_init` managed to build; `k` is the number of
backend calls already issued by this client. Returns the value handed
back to the caller, the final diagnostic state, and the number of
backend calls issued. -/
def runJson (hasAgents hasClient : Bool) (b : Backend) (k : Nat)
    (attempts : Int) (st : SdkState) : JVal × SdkState × Nat :=
  match (if hasAgents then agentsStep b k st else (none, st, 0)) with
  | (some v, st1, aused) => (v, st1, aused)
  | (none, st1, aused) =>
    if hasClient then
      ((chatLoop b (max 1 attempts).toNat (k + aused) st1).1,
       (chatLoop b (max 1 attempts).toNat (k + aused) st1).2.1,
       aused + (chatLoop b (max 1 attempts).toNat (k + aused) st1).2.2)
    else (jEmptyObj, st1, aused)

/-- `AgentSDK.diagnostics` (sdk.py lines 143-144): a pure read of the two
fields; the raw text is truncated to 200 characters with an ellipsis,
and a falsy (`None` or empty) raw yields `None`. -/
def diagnostics (st : SdkState) : Option String × Option String :=
  (st.lastError,
    match st.lastRaw with
    | some s => if s = "" then none else some (⟨s.data.take 200⟩ ++ "…")
    | none => none)

/-! ### The per-segment incident-coding retry loop (worker.py lines 271-296) -/

/-- Python truthiness of a decoded JSON value. -/
def jFalsy : JVal → Bool
  | .null => true
  | .bool b => !b
  | .num n => n = 0
  | .fnum _ => false
  | .str s => s = ""
  | .arr l => l.isEmpty
  | .obj l => l.isEmpty

/-- Modelled from the spec: `run_incident_coding` is imported by the
worker from `agents.coder_agent` but absent from
`src/agents/coder_agent.py`. Per spec §4.4 it issues one structured
call through the Generative Service Client with the caller's `attempts`
and returns the reply's incident-note list — the analogue of the
sibling `run_open_coding`, which ends in
`return data.get("open_codes") or []`. -/
def runIncidentCoding (hasAgents hasClient : Bool) (b : Backend) (k : Nat)
    (attempts : Int) (st : SdkState) : JVal × SdkState × Nat :=
  (match (runJson hasAgents hasClient b k attempts st).1 with
    | .obj fields =>
      match alistLookup fields "incident_notes" with
      | some x => if jFalsy x then JVal.arr [] else x
      | none => JVal.arr []
    | _ => JVal.arr [],
   (runJson hasAgents hasClient b k attempts st).2.1,
   (runJson hasAgents hasClient b k attempts st).2.2)

/-- An approximation of Python `repr` on a decoded JSON value, used only
through the truthiness of its stripped text: it is exact on strings and
renders every non-string value as non-blank text, which is all
`_has_labels` observes (`str(None)` is `"None"`, `str([])` is `"[]"`,
both truthy after `strip`). -/
def pyReprJ : JVal → String
  | .null => "None"
  | .bool true => "True"
  | .bool false => "False"
  | .num n => toString n
  | .fnum raw => raw
  | .str s => "'" ++ s ++ "'"
  | .arr _ => "[*]"
  | .obj _ => "{*}"

/-- Python `str()` on a decoded JSON value (differs from `repr` only on
strings). -/
def pyStrJ : JVal → String
  | .str s => s
  | v => pyReprJ v

/-- `_normalize_incident_notes` (worker.py lines 218-226). -/
def normalizeIncidentNotes (v : JVal) : List JVal :=
  match v with
  | JVal.obj fields =>
    if (alistLookup fields "transcript").isSome &&
        (alistLookup fields "segment_number").isSome &&
        (alistLookup fields "labels").isSome then
      [JVal.obj fields]
    else (fields.map Prod.snd).filter jIsObj
  | JVal.arr l => l.filter jIsObj
  | _ => []

/-- `_has_labels` (worker.py lines 228-233). -/
def hasLabelsJ (notes : List JVal) : Bool :=
  notes.any (fun note =>
    match note with
    | JVal.obj fields =>
      match alistLookup fields "labels" with
      | some (JVal.arr ls) => ls.any (fun l => pyStrip (pyStrJ l) ≠ "")
      | _ => false
    | _ => false)

/-- The worker's per-segment retry loop (worker.py lines 271-296):
`for attempt in range(2)`, each attempt one `run_incident_coding` with
`attempts=2`, breaking when the normalised notes are non-empty and
labelled; the last attempt's notes stand either way. -/
def incidentSegmentAttempts (hasAgents hasClient : Bool) (b : Backend)
    (k : Nat) (st : SdkState) : List JVal × SdkState × Nat :=
  if !(normalizeIncidentNotes (runIncidentCoding hasAgents hasClient b k 2 st).1).isEmpty
      && hasLabelsJ (normalizeIncidentNotes (runIncidentCoding hasAgents hasClient b k 2 st).1) then
    (normalizeIncidentNotes (runIncidentCoding hasAgents hasClient b k 2 st).1,
     (runIncidentCoding hasAgents hasClient b k 2 st).2.1,
     (runIncidentCoding hasAgents hasClient b k 2 st).2.2)
  else
    (normalizeIncidentNotes
        (runIncidentCoding hasAgents hasClient b
          (k + (runIncidentCoding hasAgents hasClient b k 2 st).2.2) 2
          (runIncidentCoding hasAgents hasClient b k 2 st).2.1).1,
     (runIncidentCoding hasAgents hasClient b
        (k + (runIncidentCoding hasAgents hasClient b k 2 st).2.2) 2
        (runIncidentCoding hasAgents hasClient b k 2 st).2.1).2.1,
     (runIncidentCoding hasAgents hasClient b k 2 st).2.2
       + (runIncidentCoding hasAgents hasClient b
           (k + (runIncidentCoding hasAgents hasClient b k 2 st).2.2) 2
           (runIncidentCoding hasAgents hasClient b k 2 st).2.1).2.2)

/-! ### `synthesize_incident_patterns` (src/agents/synth_agent.py lines 12-66) -/

/-- One row of the flattened cross-coder label list (synth_agent.py lines
25-37). -/
structure FlatRow where
  label : String
  transcript : String
  segmentNumber : Int
  memo : String
deriving Repr, DecidableEq

/-- The flattening loop: every label of every note of every coder, in
order. -/
def flattenIncidents (perCoder : List (List IncidentNote)) : List FlatRow :=
  (perCoder.map (fun notes =>
    (notes.map (fun n =>
      n.labels.map (fun l => FlatRow.mk l n.transcript n.segmentNumber n.analyticMemo))).flatten)).flatten

/-- `f"{row.get('transcript','')}#{row.get('segment_number','')}"`. -/
def segRef (r : FlatRow) : String := r.transcript ++ "#" ++ toString r.segmentNumber

/-- `row.get('label','').strip().lower()`, the dedupe key (`lower` applied
characterwise, as Python does; every label this pipeline produces is
ASCII). -/
def normKey (s : String) : String := ⟨(pyStripL s.data).map Char.toLower⟩

structure PatternRec where
  label : String
  representativeSegments : List String
  comparativeNote : String
deriving Repr, DecidableEq

/-- One row of the local dedupe fallback (synth_agent.py lines 50-64):
skip blank keys; `setdefault` a fresh pattern carrying the first
occurrence's label text and memo; append the segment reference unless
already present. -/
def fbStep (seen : List (String × PatternRec)) (r : FlatRow) :
    List (String × PatternRec) :=
  let key := normKey r.label
  if key = "" then seen
  else
    match alistLookup seen key with
    | none => seen ++ [(key, PatternRec.mk r.label [segRef r] r.memo)]
    | some p =>
      if segRef r ∈ p.representativeSegments then seen
      else alistInsert seen key
        { p with representativeSegments := p.representativeSegments ++ [segRef r] }

/-- `list(seen.values())` after the fallback fold. -/
def synthFallbackPatterns (perCoder : List (List IncidentNote)) : List PatternRec :=
  ((flattenIncidents perCoder).foldl fbStep []).map Prod.snd

/-- `synthesize_incident_patterns` after the generative call
(synth_agent.py lines 45-66): `svcPatterns` stands for
`data.get("incident_patterns") or []`, the service's usable patterns —
empty exactly when the service returned nothing usable, in which case
the local dedupe fallback runs. -/
def synthesizeIncidentPatterns (svcPatterns : List PatternRec)
    (perCoder : List (List IncidentNote)) : List PatternRec :=
  if svcPatterns.isEmpty then synthFallbackPatterns perCoder else svcPatterns

/-- The distinct non-blank normalised labels of one coder's notes. -/
def coderLabelKeys (notes : List IncidentNote) : List String :=
  ((flattenIncidents [notes]).map (fun r => normKey r.label)).filter (fun k => k ≠ "")

/-! ### Coder-count clamping (worker.py lines 77-78, 254-255) -/

/-- `coders = max(1, min(2, coders))`. -/
def clampCoders (c : Int) : Int := max 1 (min 2 c)

/-- The coder ids of the pipeline passes actually run:
`for i in range(1, coders + 1): coder_id = f"coder{i}"`. -/
def coderIds (c : Int) : List String :=
  (List.range' 1 (clampCoders c).toNat).map (fun i => "coder" ++ toString i)

/-! ## Association-list (Python dict) lemmas -/

theorem alistLookup_insert_self [DecidableEq κ] (m : List (κ × α)) (k : κ) (v : α) :
    alistLookup (alistInsert m k v) k = some v := by
  induction m with
  | nil => simp [alistInsert, alistLookup]
  | cons e m ih =>
    by_cases h : e.1 = k
    · simp [alistInsert, alistLookup, h]
    · simp [alistInsert, alistLookup, h, ih]

theorem alistLookup_insert_other [DecidableEq κ] (m : List (κ × α)) (k k' : κ)
    (v : α) (h : k' ≠ k) :
    alistLookup (alistInsert m k v) k' = alistLookup m k' := by
  induction m with
  | nil =>
    simp only [alistInsert, alistLookup]
    rw [if_neg (fun hk => h hk.symm)]
  | cons e m ih =>
    by_cases he : e.1 = k
    · subst he
      simp only [alistInsert, if_pos rfl, alistLookup]
      rw [if_neg (fun hk => h hk.symm), if_neg (fun hk => h (by rw [hk]))]
    · simp only [alistInsert, if_neg he, alistLookup]
      by_cases he' : e.1 = k'
      · simp [he']
      · simp [he', ih]

theorem mem_keys_alistInsert [DecidableEq κ] (m : List (κ × α)) (k x : κ) (v : α)
    (h : x ∈ (alistInsert m k v).map Prod.fst) :
    x ∈ m.map Prod.fst ∨ x = k := by
  induction m with
  | nil => simpa [alistInsert] using h
  | cons e m ih =>
    by_cases he : e.1 = k
    · simp only [alistInsert, if_pos he, List.map_cons, List.mem_cons] at h
      rcases h with h | h
      · exact Or.inr h
      · exact Or.inl (by simp [h])
    · simp only [alistInsert, if_neg he, List.map_cons, List.mem_cons] at h ⊢
      rcases h with h | h
      · exact Or.inl (Or.inl h)
      · rcases ih h with h' | h'
        · exact Or.inl (Or.inr h')
        · exact Or.inr h'

theorem keys_nodup_alistInsert [DecidableEq κ] (m : List (κ × α)) (k : κ) (v : α)
    (h : (m.map Prod.fst).Nodup) : ((alistInsert m k v).map Prod.fst).Nodup := by
  induction m with
  | nil => simp [alistInsert]
  | cons e m ih =>
    simp only [List.map_cons, List.nodup_cons] at h
    by_cases he : e.1 = k
    · simp only [alistInsert, if_pos he, List.map_cons, List.nodup_cons]
      exact ⟨by rw [← he]; exact h.1, h.2⟩
    · simp only [alistInsert, if_neg he, List.map_cons, List.nodup_cons]
      refine ⟨fun hmem => ?_, ih h.2⟩
      rcases mem_keys_alistInsert m k e.1 v hmem with h' | h'
      · exact h.1 h'
      · exact he h'

theorem alistLookup_eq_none_iff [DecidableEq κ] (m : List (κ × α)) (k : κ) :
    alistLookup m k = none ↔ k ∉ m.map Prod.fst := by
  induction m with
  | nil => simp [alistLookup]
  | cons e m ih =>
    by_cases he : e.1 = k
    · simp [alistLookup, he]
    · simp [alistLookup, he, ih, Ne.symm he]

theorem alistLookup_mem [DecidableEq κ] (m : List (κ × α)) (k : κ) (v : α)
    (h : alistLookup m k = some v) : (k, v) ∈ m := by
  induction m with
  | nil => simp [alistLookup] at h
  | cons e m ih =>
    by_cases he : e.1 = k
    · simp only [alistLookup, if_pos he, Option.some.injEq] at h
      have : e = (k, v) := Prod.ext he h
      rw [← this]
      exact List.mem_cons_self _ _
    · simp only [alistLookup, if_neg he] at h
      exact List.mem_cons_of_mem _ (ih h)

/-! ## C10: coder-count clamping -/

/-- C10: `run_job` clamps the requested coder count with
`max(1, min(2, coders))` and runs exactly that many coder passes: the
clamp is always 1 or 2, any request ≤ 1 (including 0 and negatives)
yields one pass, any request ≥ 2 yields two passes. -/
theorem C10_coder_clamp (c : Int) :
    (clampCoders c = 1 ∨ clampCoders c = 2)
    ∧ (c ≤ 1 → clampCoders c = 1)
    ∧ (2 ≤ c → clampCoders c = 2)
    ∧ (coderIds c).length = (clampCoders c).toNat := by
  refine ⟨?_, ?_, ?_, ?_⟩
  · simp only [clampCoders, Int.max_def, Int.min_def]
    split <;> split <;> omega
  · intro h
    simp only [clampCoders, Int.max_def, Int.min_def]
    split <;> split <;> omega
  · intro h
    simp only [clampCoders, Int.max_def, Int.min_def]
    split <;> split <;> omega
  · simp [coderIds]

/-- Witness for C10 at concrete inputs: a request of 0 runs one pass, a
request of 5 runs two. -/
theorem C10_coder_clamp_witness :
    clampCoders 0 = 1 ∧ clampCoders 5 = 2 ∧ (coderIds 5).length = 2 :=
  ⟨(C10_coder_clamp 0).2.1 (by decide),
   (C10_coder_clamp 5).2.2.1 (by decide),
   by rw [(C10_coder_clamp 5).2.2.2, (C10_coder_clamp 5).2.2.1 (by decide)]; rfl⟩

/-! ## C3: the prior-context window bounds -/

theorem stepWindow_length_le (w : List CtxEntry) (notes : List IncidentNote) :
    (stepWindow w notes).length ≤ 60 := by
  simp only [stepWindow]
  split
  · simp only [lastN, List.length_drop]
    omega
  · omega

theorem foldl_stepWindow_length_le (chunks : List (List IncidentNote))
    (w : List CtxEntry) (h : w.length ≤ 60) :
    (chunks.foldl stepWindow w).length ≤ 60 := by
  induction chunks generalizing w with
  | nil => simpa using h
  | cons c chunks ih => exact ih _ (stepWindow_length_le w c)

/-- C3: at every point of a coder's IncidentCoding loop — whatever the
segment results were — the stored prior-context window
(`prior_incident_context`) holds at most 60 entries, and the slice
`prior_incident_context[-20:]` handed to each incident-coding call holds
at most 20 entries and consists of the most recent stored ones (it is a
suffix of the window). -/
theorem C3_context_window_bounds (chunks : List (List IncidentNote)) (i : Nat) :
    (windowBefore chunks i).length ≤ 60
    ∧ (exposedWindow (windowBefore chunks i)).length ≤ 20
    ∧ exposedWindow (windowBefore chunks i) <:+ windowBefore chunks i :=
  ⟨foldl_stepWindow_length_le _ _ (by simp),
   length_lastN_le _ _,
   lastN_suffix _ _⟩

/-! ## C2: merge precedence in the incident map -/

theorem buildIncidentMap_keys_nodup (notes : List IncidentNote) :
    ∀ m : IncidentMap, (m.map Prod.fst).Nodup →
      (((notes.foldl mergeNote m).map Prod.fst)).Nodup := by
  induction notes with
  | nil => intro m h; simpa using h
  | cons n notes ih =>
    intro m h
    refine ih _ ?_
    simp only [mergeNote]
    split
    · exact keys_nodup_alistInsert m _ n h
    · split
      · exact keys_nodup_alistInsert m _ n h
      · exact h

theorem mergeNote_of_none {m : IncidentMap} {note : IncidentNote}
    (h : mapLookup m (noteKey note) = none) :
    mergeNote m note = mapInsert m (noteKey note) note := by
  unfold mergeNote
  rw [h]

theorem mergeNote_of_unlabeled {m : IncidentMap} {note old : IncidentNote}
    (h : mapLookup m (noteKey note) = some old) (he : old.labels.isEmpty = true) :
    mergeNote m note = mapInsert m (noteKey note) note := by
  unfold mergeNote
  rw [h]
  exact if_pos he

theorem mergeNote_of_labeled {m : IncidentMap} {note old : IncidentNote}
    (h : mapLookup m (noteKey note) = some old) (he : old.labels.isEmpty = false) :
    mergeNote m note = m := by
  unfold mergeNote
  rw [h]
  exact if_neg (by simp [he])

/-- C2: the incident map keeps at most one note per segment key (its keys
are unique after any merge sequence), a stored labelled note is never
overwritten by any later merge (in particular never regressed to an
unlabelled one), and a stored unlabelled placeholder is replaced by a
later result for the same key (in particular by a labelled one). -/
theorem C2_merge_precedence :
    (∀ notes : List IncidentNote, ((buildIncidentMap notes).map Prod.fst).Nodup)
    ∧ (∀ (m : IncidentMap) (k : SegKey) (old note : IncidentNote),
        mapLookup m k = some old → old.labels ≠ [] →
        mapLookup (mergeNote m note) k = some old)
    ∧ (∀ (m : IncidentMap) (k : SegKey) (old note : IncidentNote),
        mapLookup m k = some old → old.labels = [] → noteKey note = k →
        mapLookup (mergeNote m note) k = some note) := by
  refine ⟨fun notes => buildIncidentMap_keys_nodup notes [] (by simp), ?_, ?_⟩
  · intro m k old note hlook hlab
    cases hmk : mapLookup m (noteKey note) with
    | none =>
      rw [mergeNote_of_none hmk]
      have hk : k ≠ noteKey note := by
        intro h
        rw [h, hmk] at hlook
        exact Option.noConfusion hlook
      rw [mapInsert, mapLookup, alistLookup_insert_other _ _ _ _ hk]
      exact hlook
    | some o =>
      cases he : o.labels.isEmpty with
      | true =>
        rw [mergeNote_of_unlabeled hmk he]
        have hk : k ≠ noteKey note := by
          intro h
          rw [h, hmk] at hlook
          have : o = old := Option.some.inj hlook
          rw [this] at he
          exact hlab (List.isEmpty_iff.mp he)
        rw [mapInsert, mapLookup, alistLookup_insert_other _ _ _ _ hk]
        exact hlook
      | false =>
        rw [mergeNote_of_labeled hmk he]
        exact hlook
  · intro m k old note hlook hlab hk
    have hmk : mapLookup m (noteKey note) = some old := by rw [hk]; exact hlook
    rw [mergeNote_of_unlabeled hmk (by simp [hlab]), hk, mapInsert, mapLookup]
    exact alistLookup_insert_self m k note

/-- Witness for C2 at concrete inputs: with a labelled note stored under
`("t1", 1)`, merging an unlabelled result for the same key leaves it
intact, while an unlabelled placeholder is replaced by a labelled
result. -/
theorem C2_merge_precedence_witness :
    mapLookup
      (mergeNote [(("t1", 1), IncidentNote.mk "t1" 1 ["coping"] "m")]
        (IncidentNote.mk "t1" 1 [] "late"))
      ("t1", 1) = some (IncidentNote.mk "t1" 1 ["coping"] "m")
    ∧ mapLookup
        (mergeNote [(("t1", 1), IncidentNote.mk "t1" 1 [] "ph")]
          (IncidentNote.mk "t1" 1 ["coping"] "m"))
        ("t1", 1) = some (IncidentNote.mk "t1" 1 ["coping"] "m") :=
  ⟨C2_merge_precedence.2.1
      [(("t1", 1), IncidentNote.mk "t1" 1 ["coping"] "m")] ("t1", 1)
      (IncidentNote.mk "t1" 1 ["coping"] "m") (IncidentNote.mk "t1" 1 [] "late")
      (by decide) (by decide),
   C2_merge_precedence.2.2
      [(("t1", 1), IncidentNote.mk "t1" 1 [] "ph")] ("t1", 1)
      (IncidentNote.mk "t1" 1 [] "ph") (IncidentNote.mk "t1" 1 ["coping"] "m")
      (by decide) (by decide) (by decide)⟩

/-! ## C1: emission-order restoration of the incident list -/

theorem mapLookup_mapInsert_key {m : IncidentMap} {note : IncidentNote}
    (h : ∀ k v, mapLookup m k = some v → noteKey v = k)
    (k : SegKey) (v : IncidentNote)
    (hv : mapLookup (mapInsert m (noteKey note) note) k = some v) :
    noteKey v = k := by
  by_cases hk : k = noteKey note
  · subst hk
    rw [mapInsert, mapLookup, alistLookup_insert_self] at hv
    rw [← Option.some.inj hv]
  · rw [mapInsert, mapLookup, alistLookup_insert_other _ _ _ _ hk] at hv
    exact h k v hv

theorem mapLookup_mergeNote_key {m : IncidentMap} {note : IncidentNote}
    (h : ∀ k v, mapLookup m k = some v → noteKey v = k)
    (k : SegKey) (v : IncidentNote)
    (hv : mapLookup (mergeNote m note) k = some v) : noteKey v = k := by
  cases hmk : mapLookup m (noteKey note) with
  | none =>
    rw [mergeNote_of_none hmk] at hv
    exact mapLookup_mapInsert_key h k v hv
  | some o =>
    cases he : o.labels.isEmpty with
    | true =>
      rw [mergeNote_of_unlabeled hmk he] at hv
      exact mapLookup_mapInsert_key h k v hv
    | false =>
      rw [mergeNote_of_labeled hmk he] at hv
      exact h k v hv

/-- Every note in the incident map is stored under its own segment key,
whatever the order the results were merged in. -/
theorem buildIncidentMap_key (notes : List IncidentNote) :
    ∀ k v, mapLookup (buildIncidentMap notes) k = some v → noteKey v = k := by
  suffices h : ∀ m : IncidentMap,
      (∀ k v, mapLookup m k = some v → noteKey v = k) →
      ∀ k v, mapLookup (notes.foldl mergeNote m) k = some v → noteKey v = k by
    exact h [] (by intro k v hv; simp [mapLookup, alistLookup] at hv)
  induction notes with
  | nil => intro m hm; simpa using hm
  | cons n notes ih =>
    intro m hm
    exact ih _ (mapLookup_mergeNote_key hm)

theorem filterMap_lookup_map_key (keys : List SegKey) (m : IncidentMap)
    (h : ∀ k v, mapLookup m k = some v → noteKey v = k) :
    (keys.filterMap (fun k => mapLookup m k)).map noteKey
      = keys.filter (fun k => (mapLookup m k).isSome) := by
  induction keys with
  | nil => simp
  | cons k ks ih =>
    cases hk : mapLookup m k with
    | none => simp [List.filterMap_cons, hk, List.filter_cons, ih]
    | some v => simp [List.filterMap_cons, hk, List.filter_cons, h k v hk, ih]

/-- The emitted keys are unique when the uploaded transcript names are:
within one transcript the segment numbers `1..n` are distinct, and
distinct transcripts contribute keys with distinct first components. -/
theorem emitSegKeys_nodup (uploads : List (String × Nat))
    (h : (uploads.map Prod.fst).Nodup) : (emitSegKeys uploads).Nodup := by
  rw [emitSegKeys, List.nodup_flatten]
  constructor
  · intro l hl
    rw [List.mem_map] at hl
    obtain ⟨u, _, rfl⟩ := hl
    have hinj : Function.Injective (fun i : Nat => (u.1, Int.ofNat i)) := by
      intro a b hab
      have h1 := congrArg Prod.snd hab
      simpa using h1
    exact List.Nodup.map hinj (List.nodup_range' ..)
  · rw [List.pairwise_map]
    have h' : uploads.Pairwise (fun a b => a.1 ≠ b.1) := List.pairwise_map.mp h
    refine h'.imp ?_
    intro a b hab x hxa hxb
    rw [List.mem_map] at hxa hxb
    obtain ⟨i, _, rfl⟩ := hxa
    obtain ⟨j, _, hj⟩ := hxb
    exact hab (congrArg Prod.fst hj).symm

/-- C1: for any transcripts uploaded under distinct names and any
sequence of segment-level results merged in any order, the coder's
`incident_records` list — the one written as the coder's incident
artifact and handed to CategoryComparison — carries its notes in
exactly the original segment emission order: its keys are precisely the
emitted keys that have a retained note, in emitted order (a sublist of
the emitted key sequence, without duplicates), and each record is the
exact note retained for its key. -/
theorem C1_incident_order (uploads : List (String × Nat)) (segs : List Segment)
    (notes : List IncidentNote)
    (hsegs : orderedKeys segs = emitSegKeys uploads)
    (hnames : (uploads.map Prod.fst).Nodup) :
    (extractRecords segs (buildIncidentMap notes)).map noteKey
        = (emitSegKeys uploads).filter
            (fun k => (mapLookup (buildIncidentMap notes) k).isSome)
    ∧ List.Sublist
        ((extractRecords segs (buildIncidentMap notes)).map noteKey)
        (emitSegKeys uploads)
    ∧ (emitSegKeys uploads).Nodup
    ∧ ((extractRecords segs (buildIncidentMap notes)).map noteKey).Nodup
    ∧ ∀ r ∈ extractRecords segs (buildIncidentMap notes),
        mapLookup (buildIncidentMap notes) (noteKey r) = some r := by
  have hkey := buildIncidentMap_key notes
  have h1 : (extractRecords segs (buildIncidentMap notes)).map noteKey
      = (emitSegKeys uploads).filter
          (fun k => (mapLookup (buildIncidentMap notes) k).isSome) := by
    rw [extractRecords, hsegs]
    exact filterMap_lookup_map_key _ _ hkey
  have h2 : List.Sublist
      ((extractRecords segs (buildIncidentMap notes)).map noteKey)
      (emitSegKeys uploads) := by
    rw [h1]
    exact List.filter_sublist _
  have h3 := emitSegKeys_nodup uploads hnames
  refine ⟨h1, h2, h3, h3.sublist h2, ?_⟩
  intro r hr
  rw [extractRecords, List.mem_filterMap] at hr
  obtain ⟨k, _, hk⟩ := hr
  rw [hkey k r hk]
  exact hk

/-- Witness for C1 at a concrete input: two transcripts of 2 and 1
segments, with the three segment results produced and merged in
scrambled order (t2 first, then t1's second segment, then its first);
the extracted record keys still come out in emission order. -/
theorem C1_incident_order_witness :
    (extractRecords
        [Segment.mk "t1" 1 "a", Segment.mk "t1" 2 "b", Segment.mk "t2" 1 "c"]
        (buildIncidentMap
          [IncidentNote.mk "t2" 1 ["z"] "", IncidentNote.mk "t1" 2 ["y"] "",
           IncidentNote.mk "t1" 1 ["x"] ""])).map noteKey
      = (emitSegKeys [("t1", 2), ("t2", 1)]).filter
          (fun k =>
            (mapLookup
              (buildIncidentMap
                [IncidentNote.mk "t2" 1 ["z"] "", IncidentNote.mk "t1" 2 ["y"] "",
                 IncidentNote.mk "t1" 1 ["x"] ""]) k).isSome)
    ∧ (emitSegKeys [("t1", 2), ("t2", 1)]).Nodup :=
  ⟨(C1_incident_order [("t1", 2), ("t2", 1)]
      [Segment.mk "t1" 1 "a", Segment.mk "t1" 2 "b", Segment.mk "t2" 1 "c"]
      [IncidentNote.mk "t2" 1 ["z"] "", IncidentNote.mk "t1" 2 ["y"] "",
       IncidentNote.mk "t1" 1 ["x"] ""] (by decide) (by decide)).1,
   (C1_incident_order [("t1", 2), ("t2", 1)]
      [Segment.mk "t1" 1 "a", Segment.mk "t1" 2 "b", Segment.mk "t2" 1 "c"]
      [IncidentNote.mk "t2" 1 ["z"] "", IncidentNote.mk "t1" 2 ["y"] "",
       IncidentNote.mk "t1" 1 ["x"] ""] (by decide) (by decide)).2.2.1⟩

/-! ## C4: retained supporting quotes -/

theorem mem_alistInsert [DecidableEq κ] (d : List (κ × α)) (k : κ) (v : α)
    (kv : κ × α) (h : kv ∈ alistInsert d k v) : kv = (k, v) ∨ kv ∈ d := by
  induction d with
  | nil => simpa [alistInsert] using h
  | cons e d ih =>
    by_cases he : e.1 = k
    · simp only [alistInsert, if_pos he, List.mem_cons] at h
      rcases h with h | h
      · exact Or.inl h
      · exact Or.inr (List.mem_cons_of_mem _ h)
    · simp only [alistInsert, if_neg he, List.mem_cons] at h
      rcases h with h | h
      · exact Or.inr (List.mem_cons.mpr (Or.inl h))
      · rcases ih h with h' | h'
        · exact Or.inl h'
        · exact Or.inr (List.mem_cons_of_mem _ h')

/-- Every entry of the `by_cat` dict was contributed by some reply row. -/
theorem buildByCat_mem_of (rows : List QuoteRow) :
    ∀ (d : List (Int × List String)) (kv : Int × List String),
      kv ∈ rows.foldl (fun d r => alistInsert d r.idx (cleanRow r)) d →
      kv ∈ d ∨ ∃ r ∈ rows, kv = (r.idx, cleanRow r) := by
  induction rows with
  | nil => intro d kv h; exact Or.inl h
  | cons r rows ih =>
    intro d kv h
    rcases ih _ kv h with h' | ⟨r', hr', rfl⟩
    · rcases mem_alistInsert _ _ _ _ h' with h'' | h''
      · exact Or.inr ⟨r, List.mem_cons_self .., h''⟩
      · exact Or.inl h''
    · exact Or.inr ⟨r', List.mem_cons_of_mem _ hr', rfl⟩

theorem buildByCat_lookup (rows : List QuoteRow) (idx : Int) (l : List String)
    (h : alistLookup (buildByCat rows) idx = some l) :
    ∃ r ∈ rows, l = cleanRow r := by
  have hmem := alistLookup_mem _ _ _ h
  rcases buildByCat_mem_of rows [] (idx, l) hmem with h' | ⟨r, hr, hkv⟩
  · simp at h'
  · exact ⟨r, hr, congrArg Prod.snd hkv⟩

/-- C4 counterexample: the quote post-processing step (worker.py lines
377-385) retains a service-supplied quote verbatim even when it is not a
substring of any retrieved context — no substring check exists in the
code. With the sole retrieved context `"abc def."`, the reply quote
`"XYZ"` is retained although it is not an infix of that context. -/
theorem C4_counterexample :
    supportingQuotes [QuoteRow.mk 0 ["XYZ"]] 0 = ["XYZ"]
    ∧ ¬ ("XYZ".data <:+: "abc def.".data) := by
  constructor
  · rfl
  · decide

/-- C4 as amended: at most 3 quotes are retained per category, and every
retained quote is non-blank and is the ≤3-sentence trim of a stripped
quote string from the service reply row — but nothing ties it to the
retrieved contexts, which this step never consults. -/
theorem C4_quotes_amended (rows : List QuoteRow) (idx : Int) :
    (supportingQuotes rows idx).length ≤ 3
    ∧ ∀ q ∈ supportingQuotes rows idx,
        pyStrip q ≠ ""
        ∧ ∃ r ∈ rows, ∃ raw ∈ r.quotes, q = trimToSentences (pyStrip raw) 3 := by
  constructor
  · calc (supportingQuotes rows idx).length
        ≤ ((((alistLookup (buildByCat rows) idx).getD []).take 3).map
            (fun q => trimToSentences q 3)).length :=
          List.length_filter_le _ _
      _ ≤ 3 := by
          rw [List.length_map, List.length_take]
          omega
  · intro q hq
    rw [supportingQuotes, List.mem_filter] at hq
    obtain ⟨hqmem, hqpred⟩ := hq
    refine ⟨by simpa using hqpred, ?_⟩
    rw [List.mem_map] at hqmem
    obtain ⟨q0, hq0, rfl⟩ := hqmem
    have hq0' := List.mem_of_mem_take hq0
    cases hlook : alistLookup (buildByCat rows) idx with
    | none => rw [hlook] at hq0'; simp at hq0'
    | some l =>
      rw [hlook] at hq0'
      simp only [Option.getD_some] at hq0'
      obtain ⟨r, hr, rfl⟩ := buildByCat_lookup rows idx l hlook
      rw [cleanRow, List.mem_filter, List.mem_map] at hq0'
      obtain ⟨⟨raw, hraw, rfl⟩, _⟩ := hq0'
      exact ⟨r, hr, raw, hraw, rfl⟩

/-- Witness for the amended C4 at a concrete reply: five quotes are cut
to three, and the retained first quote is the 3-sentence trim of the
stripped raw quote. -/
theorem C4_quotes_amended_witness :
    (supportingQuotes [QuoteRow.mk 0 ["  A. B. C. D.  ", "x1.", "y2.", "z3.", "w4."]] 0).length ≤ 3
    ∧ (pyStrip "A. B. C." ≠ ""
        ∧ ∃ r ∈ [QuoteRow.mk 0 ["  A. B. C. D.  ", "x1.", "y2.", "z3.", "w4."]],
            ∃ raw ∈ r.quotes, "A. B. C." = trimToSentences (pyStrip raw) 3) :=
  ⟨(C4_quotes_amended [QuoteRow.mk 0 ["  A. B. C. D.  ", "x1.", "y2.", "z3.", "w4."]] 0).1,
   (C4_quotes_amended [QuoteRow.mk 0 ["  A. B. C. D.  ", "x1.", "y2.", "z3.", "w4."]] 0).2
      "A. B. C." (by decide)⟩

/-! ## C8: the local incident-pattern dedupe fallback -/

theorem alistLookup_eq_some_iff_mem [DecidableEq κ] {d : List (κ × α)}
    (hd : (d.map Prod.fst).Nodup) (k : κ) (v : α) :
    alistLookup d k = some v ↔ (k, v) ∈ d := by
  constructor
  · exact alistLookup_mem d k v
  · intro hm
    induction d with
    | nil => simp at hm
    | cons e d ih =>
      simp only [List.map_cons, List.nodup_cons] at hd
      rcases List.mem_cons.mp hm with h | h
      · rw [← h]
        simp [alistLookup]
      · have hk : e.1 ≠ k := by
          intro hek
          exact hd.1 (hek ▸ List.mem_map.mpr ⟨(k, v), h, rfl⟩)
        simp only [alistLookup, if_neg hk]
        exact ih hd.2 h

theorem keys_alistInsert_of_isSome [DecidableEq κ] (d : List (κ × α)) (k : κ)
    (v : α) (h : (alistLookup d k).isSome) :
    (alistInsert d k v).map Prod.fst = d.map Prod.fst := by
  induction d with
  | nil => simp [alistLookup] at h
  | cons e d ih =>
    by_cases he : e.1 = k
    · simp [alistInsert, he]
    · simp only [alistLookup, if_neg he] at h
      simp [alistInsert, he, ih h]

theorem alistLookup_append_one [DecidableEq κ] (d : List (κ × α)) (k0 : κ)
    (v0 : α) (k : κ) :
    alistLookup (d ++ [(k0, v0)]) k =
      match alistLookup d k with
      | some v => some v
      | none => if k0 = k then some v0 else none := by
  induction d with
  | nil => simp [alistLookup]
  | cons e d ih =>
    by_cases he : e.1 = k <;> simp [alistLookup, he, ih]

theorem exists_mem_append_one {P : α → Prop} {l : List α} {x : α} :
    (∃ y ∈ l ++ [x], P y) ↔ (∃ y ∈ l, P y) ∨ P x := by
  constructor
  · rintro ⟨y, hy, hP⟩
    rcases List.mem_append.mp hy with h | h
    · exact Or.inl ⟨y, h, hP⟩
    · rw [List.mem_singleton] at h
      exact Or.inr (h ▸ hP)
  · rintro (⟨y, hy, hP⟩ | hP)
    · exact ⟨y, List.mem_append_left _ hy, hP⟩
    · exact ⟨x, List.mem_append_right _ (List.mem_singleton_self x), hP⟩

/-- The induction invariant of the fallback fold (synth_agent.py lines
49-64), tying the `seen` dict to the rows already processed: keys are
unique, every stored pattern sits under its own non-blank normalised
label with exactly the segment references of the matching processed
rows (without duplicates), and a key is present exactly when some
processed row normalises to it. -/
def FbInv (processed : List FlatRow) (seen : List (String × PatternRec)) : Prop :=
  ((seen.map Prod.fst).Nodup)
  ∧ (∀ k p, alistLookup seen k = some p →
      k ≠ "" ∧ normKey p.label = k ∧ p.representativeSegments.Nodup
      ∧ (∀ s, s ∈ p.representativeSegments ↔
          ∃ r ∈ processed, normKey r.label = k ∧ segRef r = s))
  ∧ (∀ k, (alistLookup seen k).isSome
        ↔ (k ≠ "" ∧ ∃ r ∈ processed, normKey r.label = k))

theorem fbStep_inv {processed : List FlatRow} {seen : List (String × PatternRec)}
    (r : FlatRow) (h : FbInv processed seen) :
    FbInv (processed ++ [r]) (fbStep seen r) := by
  obtain ⟨hnd, hent, hkey⟩ := h
  by_cases hk0 : normKey r.label = ""
  · rw [fbStep, if_pos hk0]
    refine ⟨hnd, ?_, ?_⟩
    · intro k p hkp
      obtain ⟨h1, h2, h3, h4⟩ := hent k p hkp
      refine ⟨h1, h2, h3, fun s => ?_⟩
      rw [h4 s]
      constructor
      · rintro ⟨r', hr', hh⟩
        exact ⟨r', List.mem_append_left _ hr', hh⟩
      · intro hex
        rcases exists_mem_append_one.mp hex with hh | hh
        · exact hh
        · exact absurd (hh.1 ▸ hk0) h1
    · intro k
      rw [hkey k]
      constructor
      · rintro ⟨h1, r', hr', hh⟩
        exact ⟨h1, r', List.mem_append_left _ hr', hh⟩
      · rintro ⟨h1, hex⟩
        rcases exists_mem_append_one.mp hex with hh | hh
        · exact ⟨h1, hh⟩
        · exact absurd (hh ▸ hk0) h1
  · cases hlook : alistLookup seen (normKey r.label) with
    | none =>
      have hstep : fbStep seen r
          = seen ++ [(normKey r.label, PatternRec.mk r.label [segRef r] r.memo)] := by
        unfold fbStep
        rw [if_neg hk0, hlook]
      rw [hstep]
      have hkeynotin : normKey r.label ∉ seen.map Prod.fst :=
        (alistLookup_eq_none_iff seen (normKey r.label)).mp hlook
      refine ⟨?_, ?_, ?_⟩
      · rw [List.map_append]
        exact List.nodup_append.mpr
          ⟨hnd, List.nodup_singleton _, fun a ha hb => by
            simp only [List.map_cons, List.map_nil, List.mem_singleton] at hb
            exact hkeynotin (hb ▸ ha)⟩
      · intro k q hkq
        rw [alistLookup_append_one] at hkq
        cases hold : alistLookup seen k with
        | some v =>
          rw [hold] at hkq
          obtain ⟨h1, h2, h3, h4⟩ := hent k v hold
          cases hkq
          refine ⟨h1, h2, h3, fun s => ?_⟩
          rw [h4 s]
          constructor
          · rintro ⟨r', hr', hh⟩
            exact ⟨r', List.mem_append_left _ hr', hh⟩
          · intro hex
            rcases exists_mem_append_one.mp hex with hh | hh
            · exact hh
            · exfalso
              rw [← hh.1, hlook] at hold
              exact Option.noConfusion hold
        | none =>
          rw [hold] at hkq
          by_cases hkk : normKey r.label = k
          · rw [if_pos hkk] at hkq
            cases hkq
            refine ⟨hkk ▸ hk0, hkk, List.nodup_singleton _, fun s => ?_⟩
            rw [List.mem_singleton]
            constructor
            · intro hs
              exact exists_mem_append_one.mpr (Or.inr ⟨hkk, hs.symm⟩)
            · intro hex
              rcases exists_mem_append_one.mp hex with ⟨r', hr', hh⟩ | hh
              · exfalso
                have := (hkey k).mpr ⟨hkk ▸ hk0, r', hr', hh.1⟩
                rw [hold] at this
                exact Bool.noConfusion this
              · exact hh.2.symm
          · rw [if_neg hkk] at hkq
            exact Option.noConfusion hkq
      · intro k
        rw [alistLookup_append_one]
        cases hold : alistLookup seen k with
        | some v =>
          simp only [Option.isSome_some, true_iff]
          have hprev := (hkey k).mp (by rw [hold]; rfl)
          exact ⟨hprev.1, exists_mem_append_one.mpr (Or.inl hprev.2)⟩
        | none =>
          have holdk := hkey k
          rw [hold] at holdk
          simp only [Option.isSome_none, Bool.false_eq_true, false_iff] at holdk
          by_cases hkk : normKey r.label = k
          · rw [if_pos hkk]
            simp only [Option.isSome_some, true_iff]
            exact ⟨hkk ▸ hk0, exists_mem_append_one.mpr (Or.inr hkk)⟩
          · rw [if_neg hkk]
            simp only [Option.isSome_none, Bool.false_eq_true, false_iff]
            rintro ⟨h1, hex⟩
            rcases exists_mem_append_one.mp hex with hh | hh
            · exact holdk ⟨h1, hh⟩
            · exact hkk hh
    | some p =>
      by_cases hseg : segRef r ∈ p.representativeSegments
      · have hstep : fbStep seen r = seen := by
          unfold fbStep
          rw [if_neg hk0, hlook]
          exact if_pos hseg
        rw [hstep]
        refine ⟨hnd, ?_, ?_⟩
        · intro k q hkq
          obtain ⟨h1, h2, h3, h4⟩ := hent k q hkq
          refine ⟨h1, h2, h3, fun s => ?_⟩
          constructor
          · intro hs
            exact exists_mem_append_one.mpr (Or.inl ((h4 s).mp hs))
          · intro hex
            rcases exists_mem_append_one.mp hex with hh | hh
            · exact (h4 s).mpr hh
            · have hk : k = normKey r.label := hh.1.symm
              subst hk
              have hq : q = p := by
                rw [hlook] at hkq
                exact (Option.some.inj hkq).symm
              rw [hq, ← hh.2]
              exact hseg
        · intro k
          constructor
          · intro hs
            have hprev := (hkey k).mp hs
            exact ⟨hprev.1, exists_mem_append_one.mpr (Or.inl hprev.2)⟩
          · rintro ⟨h1, hex⟩
            rcases exists_mem_append_one.mp hex with hh | hh
            · exact (hkey k).mpr ⟨h1, hh⟩
            · rw [← hh, hlook]
              rfl
      · have hstep : fbStep seen r = alistInsert seen (normKey r.label)
            { p with representativeSegments :=
                p.representativeSegments ++ [segRef r] } := by
          unfold fbStep
          rw [if_neg hk0, hlook]
          exact if_neg hseg
        rw [hstep]
        obtain ⟨hp1, hp2, hp3, hp4⟩ := hent _ p hlook
        refine ⟨?_, ?_, ?_⟩
        · rw [keys_alistInsert_of_isSome _ _ _ (by rw [hlook]; rfl)]
          exact hnd
        · intro k q hkq
          by_cases hkk : k = normKey r.label
          · subst hkk
            rw [alistLookup_insert_self] at hkq
            have hq : q = { p with representativeSegments :=
                p.representativeSegments ++ [segRef r] } :=
              (Option.some.inj hkq).symm
            subst hq
            refine ⟨hp1, hp2, ?_, fun s => ?_⟩
            · exact List.nodup_append.mpr
                ⟨hp3, List.nodup_singleton _, fun a ha hb => by
                  rw [List.mem_singleton] at hb
                  exact hseg (hb ▸ ha)⟩
            · constructor
              · intro hs
                rcases List.mem_append.mp hs with hs' | hs'
                · exact exists_mem_append_one.mpr (Or.inl ((hp4 s).mp hs'))
                · rw [List.mem_singleton] at hs'
                  exact exists_mem_append_one.mpr (Or.inr ⟨rfl, hs'.symm⟩)
              · intro hex
                rcases exists_mem_append_one.mp hex with hh | hh
                · exact List.mem_append_left _ ((hp4 s).mpr hh)
                · refine List.mem_append_right _ ?_
                  rw [List.mem_singleton, hh.2]
          · rw [alistLookup_insert_other _ _ _ _ hkk] at hkq
            obtain ⟨h1, h2, h3, h4⟩ := hent k q hkq
            refine ⟨h1, h2, h3, fun s => ?_⟩
            constructor
            · intro hs
              exact exists_mem_append_one.mpr (Or.inl ((h4 s).mp hs))
            · intro hex
              rcases exists_mem_append_one.mp hex with hh | hh
              · exact (h4 s).mpr hh
              · exact absurd hh.1.symm hkk
        · intro k
          by_cases hkk : k = normKey r.label
          · subst hkk
            rw [alistLookup_insert_self]
            simp only [Option.isSome_some, true_iff]
            exact ⟨hk0, exists_mem_append_one.mpr (Or.inr rfl)⟩
          · rw [alistLookup_insert_other _ _ _ _ hkk]
            constructor
            · intro hs
              have hprev := (hkey k).mp hs
              exact ⟨hprev.1, exists_mem_append_one.mpr (Or.inl hprev.2)⟩
            · rintro ⟨h1, hex⟩
              rcases exists_mem_append_one.mp hex with hh | hh
              · exact (hkey k).mpr ⟨h1, hh⟩
              · exact absurd hh.symm hkk

theorem foldl_fbStep_inv (rows : List FlatRow) :
    ∀ (processed : List FlatRow) (seen : List (String × PatternRec)),
      FbInv processed seen → FbInv (processed ++ rows) (rows.foldl fbStep seen) := by
  induction rows with
  | nil => intro processed seen h; simpa using h
  | cons r rows ih =>
    intro processed seen h
    have h2 := ih (processed ++ [r]) (fbStep seen r) (fbStep_inv r h)
    simpa using h2

theorem fbInv_nil : FbInv [] [] := by
  refine ⟨List.nodup_nil, ?_, ?_⟩
  · intro k p hkp
    simp [alistLookup] at hkp
  · intro k
    simp [alistLookup]

/-- The invariant instantiated at the full flattened row list. -/
theorem fbInv_flat (perCoder : List (List IncidentNote)) :
    FbInv (flattenIncidents perCoder) ((flattenIncidents perCoder).foldl fbStep []) := by
  have h := foldl_fbStep_inv (flattenIncidents perCoder) [] [] fbInv_nil
  simpa using h

theorem flattenIncidents_single (notes : List IncidentNote) :
    flattenIncidents [notes]
      = (notes.map (fun n => n.labels.map (fun l =>
          FlatRow.mk l n.transcript n.segmentNumber n.analyticMemo))).flatten := by
  simp [flattenIncidents]

theorem flattenIncidents_blocks (perCoder : List (List IncidentNote)) :
    flattenIncidents perCoder
      = (perCoder.map (fun notes => flattenIncidents [notes])).flatten := by
  rw [flattenIncidents]
  congr 1
  exact List.map_congr_left fun notes _ => (flattenIncidents_single notes).symm

theorem filter_map_flatten (L : List (List α)) (f : α → β) (g : β → Bool) :
    (L.flatten.map f).filter g = (L.map (fun l => (l.map f).filter g)).flatten := by
  induction L with
  | nil => simp
  | cons l L ih =>
    simp only [List.flatten_cons, List.map_append, List.filter_append, ih,
      List.map_cons]

theorem dedup_length_append_le [DecidableEq α] (a b : List α) :
    ((a ++ b).dedup).length ≤ a.dedup.length + b.dedup.length := by
  induction a with
  | nil => simp
  | cons x a ih =>
    by_cases hx : x ∈ a
    · rw [List.cons_append, List.dedup_cons_of_mem (List.mem_append_left _ hx),
        List.dedup_cons_of_mem hx]
      exact ih
    · rw [List.cons_append, List.dedup_cons_of_not_mem hx]
      by_cases hxb : x ∈ a ++ b
      · rw [List.dedup_cons_of_mem hxb]
        simp only [List.length_cons]
        omega
      · rw [List.dedup_cons_of_not_mem hxb]
        simp only [List.length_cons]
        omega

theorem dedup_length_flatten_le [DecidableEq α] (L : List (List α)) :
    (L.flatten.dedup).length ≤ (L.map (fun l => l.dedup.length)).sum := by
  induction L with
  | nil => simp
  | cons l L ih =>
    simp only [List.flatten_cons, List.map_cons, List.sum_cons]
    have h := dedup_length_append_le l L.flatten
    omega

theorem mem_flattenIncidents_of {perCoder : List (List IncidentNote)}
    {notes : List IncidentNote} {n : IncidentNote} {l : String}
    (h1 : notes ∈ perCoder) (h2 : n ∈ notes) (h3 : l ∈ n.labels) :
    FlatRow.mk l n.transcript n.segmentNumber n.analyticMemo
      ∈ flattenIncidents perCoder := by
  rw [flattenIncidents, List.mem_flatten]
  refine ⟨_, List.mem_map.mpr ⟨notes, h1, rfl⟩, ?_⟩
  rw [List.mem_flatten]
  exact ⟨_, List.mem_map.mpr ⟨n, h2, rfl⟩, List.mem_map.mpr ⟨l, h3, rfl⟩⟩

/-- C8: when the generative service returns no usable incident patterns,
`synthesize_incident_patterns` runs the local dedupe fallback, which
yields exactly one pattern per distinct non-blank label (compared
case-insensitively after whitespace trimming) across all coders' notes;
each pattern's representative segment references are the union, without
duplicates, of the references of the rows carrying its label; if any
note carries a non-blank label the result is non-empty; and the number
of patterns is at most the sum of each coder's distinct-label count. -/
theorem C8_fallback_dedupe (perCoder : List (List IncidentNote)) :
    synthesizeIncidentPatterns [] perCoder = synthFallbackPatterns perCoder
    ∧ ((synthFallbackPatterns perCoder).map (fun p => normKey p.label)).Nodup
    ∧ (∀ k, k ∈ (synthFallbackPatterns perCoder).map (fun p => normKey p.label)
        ↔ (k ≠ "" ∧ ∃ r ∈ flattenIncidents perCoder, normKey r.label = k))
    ∧ (∀ p ∈ synthFallbackPatterns perCoder,
        p.representativeSegments.Nodup
        ∧ ∀ s, s ∈ p.representativeSegments ↔
            ∃ r ∈ flattenIncidents perCoder,
              normKey r.label = normKey p.label ∧ segRef r = s)
    ∧ ((∃ notes ∈ perCoder, ∃ n ∈ notes, ∃ l ∈ n.labels, normKey l ≠ "") →
        synthFallbackPatterns perCoder ≠ [])
    ∧ (synthFallbackPatterns perCoder).length
        ≤ (perCoder.map (fun notes => (coderLabelKeys notes).dedup.length)).sum := by
  obtain ⟨hnd, hent, hkey⟩ := fbInv_flat perCoder
  have hmemLook : ∀ kp : String × PatternRec,
      kp ∈ (flattenIncidents perCoder).foldl fbStep [] →
      alistLookup ((flattenIncidents perCoder).foldl fbStep []) kp.1 = some kp.2 := by
    intro kp hkp
    exact (alistLookup_eq_some_iff_mem hnd kp.1 kp.2).mpr (by rw [Prod.mk.eta]; exact hkp)
  have hA : (synthFallbackPatterns perCoder).map (fun p => normKey p.label)
      = ((flattenIncidents perCoder).foldl fbStep []).map Prod.fst := by
    rw [synthFallbackPatterns, List.map_map]
    exact List.map_congr_left fun kp hkp => (hent kp.1 kp.2 (hmemLook kp hkp)).2.1
  have hB : ∀ k, k ∈ ((flattenIncidents perCoder).foldl fbStep []).map Prod.fst
      ↔ (alistLookup ((flattenIncidents perCoder).foldl fbStep []) k).isSome := by
    intro k
    constructor
    · intro hk
      cases hl : alistLookup ((flattenIncidents perCoder).foldl fbStep []) k with
      | none => exact absurd hk ((alistLookup_eq_none_iff _ k).mp hl)
      | some v => rfl
    · intro hk
      obtain ⟨v, hv⟩ := Option.isSome_iff_exists.mp hk
      exact List.mem_map.mpr ⟨(k, v), alistLookup_mem _ _ _ hv, rfl⟩
  refine ⟨rfl, ?_, ?_, ?_, ?_, ?_⟩
  · rw [hA]
    exact hnd
  · intro k
    rw [hA, hB k]
    exact hkey k
  · intro p hp
    rw [synthFallbackPatterns] at hp
    obtain ⟨kp, hkp, hkp2⟩ := List.mem_map.mp hp
    obtain ⟨h1, h2, h3, h4⟩ := hent kp.1 kp.2 (hmemLook kp hkp)
    subst hkp2
    rw [h2]
    exact ⟨h3, h4⟩
  · rintro ⟨notes, hn, n, hn2, l, hl, hlne⟩
    have hr := mem_flattenIncidents_of hn hn2 hl
    have hs := (hkey (normKey l)).mpr ⟨hlne, _, hr, rfl⟩
    obtain ⟨v, hv⟩ := Option.isSome_iff_exists.mp hs
    have hmem := alistLookup_mem _ _ _ hv
    intro hcontra
    rw [synthFallbackPatterns, List.map_eq_nil_iff] at hcontra
    rw [hcontra] at hmem
    simp at hmem
  · have hlen1 : (synthFallbackPatterns perCoder).length
        = (((flattenIncidents perCoder).foldl fbStep []).map Prod.fst).length := by
      rw [synthFallbackPatterns, List.length_map, List.length_map]
    have hperm : (((flattenIncidents perCoder).foldl fbStep []).map Prod.fst).Perm
        ((((flattenIncidents perCoder).map (fun r => normKey r.label)).filter
          (fun k => k ≠ "")).dedup) := by
      rw [List.perm_ext_iff_of_nodup hnd (List.nodup_dedup _)]
      intro k
      rw [List.mem_dedup, hB k, hkey k, List.mem_filter, List.mem_map]
      constructor
      · rintro ⟨h1, r, hr, hh⟩
        exact ⟨⟨r, hr, hh⟩, by simpa using h1⟩
      · rintro ⟨⟨r, hr, hh⟩, h1⟩
        exact ⟨by simpa using h1, r, hr, hh⟩
    have hflatEq : ((flattenIncidents perCoder).map (fun r => normKey r.label)).filter
          (fun k => k ≠ "")
        = (perCoder.map coderLabelKeys).flatten := by
      rw [flattenIncidents_blocks perCoder, filter_map_flatten, List.map_map]
      rfl
    rw [hlen1, hperm.length_eq, hflatEq]
    have h := dedup_length_flatten_le (perCoder.map coderLabelKeys)
    rw [List.map_map] at h
    exact h

/-- Witness for C8 at a concrete input: two coders whose notes carry the
labels `"Coping"`, `" coping "` and `"Stress"` yield a non-empty
fallback pattern list of exactly the two distinct case-insensitive
labels, within the per-coder distinct-count sum. -/
theorem C8_fallback_dedupe_witness :
    synthFallbackPatterns
        [[IncidentNote.mk "t1" 1 ["Coping", " coping "] "m"],
         [IncidentNote.mk "t1" 2 ["Stress"] "m2"]] ≠ []
    ∧ (synthFallbackPatterns
        [[IncidentNote.mk "t1" 1 ["Coping", " coping "] "m"],
         [IncidentNote.mk "t1" 2 ["Stress"] "m2"]]).length
      ≤ ([[IncidentNote.mk "t1" 1 ["Coping", " coping "] "m"],
          [IncidentNote.mk "t1" 2 ["Stress"] "m2"]].map
          (fun notes => (coderLabelKeys notes).dedup.length)).sum :=
  ⟨(C8_fallback_dedupe
      [[IncidentNote.mk "t1" 1 ["Coping", " coping "] "m"],
       [IncidentNote.mk "t1" 2 ["Stress"] "m2"]]).2.2.2.2.1 (by decide),
   (C8_fallback_dedupe
      [[IncidentNote.mk "t1" 1 ["Coping", " coping "] "m"],
       [IncidentNote.mk "t1" 2 ["Stress"] "m2"]]).2.2.2.2.2⟩

/-! ## C7: backend-call budget -/

theorem chatIter_calls_le (b : Backend) (k : Nat) (st : SdkState) :
    (chatIter b k st).2.2 ≤ 2 := by
  rw [chatIter]
  cases b k with
  | exn msg => exact Nat.le_refl 2
  | reply c =>
    dsimp only
    split
    · cases pyJsonLoads (c.getD "") with
      | none => exact Nat.le_refl 2
      | some v => exact Nat.le_succ 1
    · exact Nat.le_succ 1

theorem chatLoop_calls_le (b : Backend) (iters : Nat) :
    ∀ (k : Nat) (st : SdkState), (chatLoop b iters k st).2.2 ≤ 2 * iters := by
  induction iters with
  | zero => intro k st; simp [chatLoop]
  | succ n ih =>
    intro k st
    rw [chatLoop]
    rcases hit : chatIter b k st with ⟨r, st1, used⟩
    have hused : used ≤ 2 := by
      have h := chatIter_calls_le b k st
      rw [hit] at h
      exact h
    cases r with
    | some v =>
      simp only
      omega
    | none =>
      rcases hloop : chatLoop b n (k + used) st1 with ⟨v, st2, used2⟩
      have h2 : used2 ≤ 2 * n := by
        have h := ih (k + used) st1
        rw [hloop] at h
        exact h
      simp only [hloop]
      omega

theorem agentsStep_calls_le (b : Backend) (k : Nat) (st : SdkState) :
    (agentsStep b k st).2.2 ≤ 2 := by
  rw [agentsStep]
  cases b k with
  | exn msg =>
    cases b (k + 1) with
    | exn msg2 => exact Nat.le_refl 2
    | reply c2 =>
      dsimp only
      split <;> exact Nat.le_refl 2
  | reply c =>
    dsimp only
    split
    · exact Nat.le_succ 1
    · cases pyJsonLoads (c.getD "") with
      | some v => exact Nat.le_succ 1
      | none =>
        cases b (k + 1) with
        | exn msg2 => exact Nat.le_refl 2
        | reply c2 =>
          dsimp only
          split <;> exact Nat.le_refl 2

theorem runJson_calls_le (hA hC : Bool) (b : Backend) (k : Nat) (a : Int)
    (st : SdkState) :
    (runJson hA hC b k a st).2.2
      ≤ 2 * (max 1 a).toNat + (if hA then 2 else 0) := by
  rw [runJson]
  cases hA with
  | false =>
    simp only [Bool.false_eq_true, if_false]
    cases hC with
    | false => simp
    | true =>
      simp only [if_true]
      rcases hcl : chatLoop b (max 1 a).toNat (k + 0) st with ⟨v, st2, used⟩
      have h := chatLoop_calls_le b (max 1 a).toNat (k + 0) st
      rw [hcl] at h
      simpa using h
  | true =>
    simp only [if_true]
    rcases hag : agentsStep b k st with ⟨r, st1, aused⟩
    have ha : aused ≤ 2 := by
      have h := agentsStep_calls_le b k st
      rw [hag] at h
      exact h
    cases r with
    | some v => simp only; omega
    | none =>
      cases hC with
      | false => simp only [Bool.false_eq_true, if_false]; omega
      | true =>
        simp only [if_true]
        rcases hcl : chatLoop b (max 1 a).toNat (k + aused) st1 with ⟨v, st2, used⟩
        have h := chatLoop_calls_le b (max 1 a).toNat (k + aused) st1
        rw [hcl] at h
        dsimp only at h ⊢
        omega

theorem runIncidentCoding_calls (hA hC : Bool) (b : Backend) (k : Nat) (a : Int)
    (st : SdkState) :
    (runIncidentCoding hA hC b k a st).2.2 = (runJson hA hC b k a st).2.2 := rfl

/-- C7 counterexample: the claim "at most `attempts` backend calls per
unit of work" fails on the code. When the json-format call raises,
`run_json` issues a second, fallback call inside the same attempt
(sdk.py lines 106-137), so `attempts=1` yields 2 backend calls; and the
worker retries a segment's incident coding twice with `attempts=2`
(worker.py lines 272-296), so one segment can issue 8 calls, not 2. -/
theorem C7_counterexample :
    (runJson false true (fun _ => CallOutcome.exn "error") 0 1 initState).2.2 = 2
    ∧ ¬ ((runJson false true (fun _ => CallOutcome.exn "error") 0 1 initState).2.2 ≤ 1)
    ∧ (incidentSegmentAttempts false true (fun _ => CallOutcome.exn "error")
        0 initState).2.2 = 8
    ∧ ¬ ((incidentSegmentAttempts false true (fun _ => CallOutcome.exn "error")
        0 initState).2.2 ≤ 2) := by
  refine ⟨rfl, by decide, rfl, by decide⟩

/-- C7 as amended: one `run_json` invocation issues at most
`2 * max(1, attempts)` backend calls (each attempt is a json-format call
plus at most one fallback call), plus up to 2 more when the Agents-SDK
path is active; a single segment's incident coding (two worker-level
retries of `run_incident_coding` with `attempts=2`) issues at most twice
that at `attempts=2` — 8 calls on the chat path, 12 with the agents
path. -/
theorem C7_call_budget_amended (hA hC : Bool) (b : Backend) (k : Nat) (a : Int)
    (st : SdkState) :
    (runJson hA hC b k a st).2.2 ≤ 2 * (max 1 a).toNat + (if hA then 2 else 0)
    ∧ (incidentSegmentAttempts hA hC b k st).2.2
        ≤ 2 * (2 * 2 + (if hA then 2 else 0)) := by
  have hmax : (max 1 (2 : Int)).toNat = 2 := rfl
  refine ⟨runJson_calls_le hA hC b k a st, ?_⟩
  rw [incidentSegmentAttempts]
  have hc1 : (runIncidentCoding hA hC b k 2 st).2.2
      ≤ 2 * 2 + (if hA then 2 else 0) := by
    rw [runIncidentCoding_calls]
    have h2 := runJson_calls_le hA hC b k 2 st
    rw [hmax] at h2
    exact h2
  have hc2 : (runIncidentCoding hA hC b
        (k + (runIncidentCoding hA hC b k 2 st).2.2) 2
        (runIncidentCoding hA hC b k 2 st).2.1).2.2
      ≤ 2 * 2 + (if hA then 2 else 0) := by
    rw [runIncidentCoding_calls]
    have h3 := runJson_calls_le hA hC b
      (k + (runIncidentCoding hA hC b k 2 st).2.2) 2
      (runIncidentCoding hA hC b k 2 st).2.1
    rw [hmax] at h3
    exact h3
  generalize hX : (if hA = true then (2 : Nat) else 0) = X at hc1 hc2 ⊢
  split
  · dsimp only
    omega
  · dsimp only
    omega

/-! ## C6: run_json's return contract and diagnostics -/

theorem isTruthyDict_isObj (v : JVal) (h : isTruthyDict v = true) :
    jIsObj v = true := by
  cases v <;> simp_all [isTruthyDict, jIsObj]

theorem chatFallbackCall_exn {b : Backend} {k : Nat} {msg : String}
    (st : SdkState) (h : b k = CallOutcome.exn msg) :
    chatFallbackCall b k st
      = (none, { st with lastError := some ("chat path error: " ++ msg) }) := by
  unfold chatFallbackCall
  rw [h]

theorem chatFallbackCall_reply {b : Backend} {k : Nat} {c : Option String}
    (st : SdkState) (h : b k = CallOutcome.reply c) :
    chatFallbackCall b k st
      = if isTruthyDict (parseJsonFlexible (c.getD "")) then
          (some (parseJsonFlexible (c.getD "")), { st with lastRaw := some (c.getD "") })
        else (none, { st with lastRaw := some (c.getD "") }) := by
  unfold chatFallbackCall
  rw [h]

theorem chatIter_allExn {b : Backend} (h : ∀ n, (b n).isExn = true)
    (k : Nat) (st : SdkState) :
    (chatIter b k st).1 = none
    ∧ (chatIter b k st).2.1.lastError.isSome = true
    ∧ (chatIter b k st).2.1.lastRaw = st.lastRaw := by
  rw [chatIter]
  cases hbk : b k with
  | reply c =>
    have hk := h k
    rw [hbk] at hk
    exact Bool.noConfusion hk
  | exn msg =>
    dsimp only
    cases hbk2 : b (k + 1) with
    | reply c2 =>
      have hk := h (k + 1)
      rw [hbk2] at hk
      exact Bool.noConfusion hk
    | exn msg2 =>
      rw [chatFallbackCall_exn _ hbk2]
      exact ⟨rfl, rfl, rfl⟩

theorem chatLoop_allExn {b : Backend} (h : ∀ n, (b n).isExn = true)
    (iters : Nat) : ∀ (k : Nat) (st : SdkState),
      (chatLoop b iters k st).1 = jEmptyObj
      ∧ (chatLoop b iters k st).2.1.lastRaw = st.lastRaw
      ∧ (iters ≠ 0 → (chatLoop b iters k st).2.1.lastError.isSome = true) := by
  induction iters with
  | zero => exact fun k st => ⟨rfl, rfl, fun hn => absurd rfl hn⟩
  | succ n ih =>
    intro k st
    rw [chatLoop]
    rcases hit : chatIter b k st with ⟨r, st1, used⟩
    have hstep := chatIter_allExn h k st
    rw [hit] at hstep
    obtain ⟨hr, herr, hraw⟩ := hstep
    dsimp only at hr herr hraw
    subst hr
    cases n with
    | zero => exact ⟨rfl, hraw, fun _ => herr⟩
    | succ m =>
      have hrec := ih (k + used) st1
      refine ⟨hrec.1, ?_, fun _ => hrec.2.2 (Nat.succ_ne_zero m)⟩
      rw [hrec.2.1, hraw]

theorem agentsStep_allExn {b : Backend} (h : ∀ n, (b n).isExn = true)
    (k : Nat) (st : SdkState) :
    (agentsStep b k st).1 = none
    ∧ (agentsStep b k st).2.1.lastError.isSome = true
    ∧ (agentsStep b k st).2.1.lastRaw = st.lastRaw := by
  rw [agentsStep]
  cases hbk : b k with
  | reply c =>
    have hk := h k
    rw [hbk] at hk
    exact Bool.noConfusion hk
  | exn msg =>
    dsimp only
    cases hbk2 : b (k + 1) with
    | reply c2 =>
      have hk := h (k + 1)
      rw [hbk2] at hk
      exact Bool.noConfusion hk
    | exn msg2 => exact ⟨rfl, rfl, rfl⟩

theorem chatIter_obj {b : Backend}
    (hb : ∀ n c, b n = CallOutcome.reply c →
      ∀ v, pyJsonLoads (c.getD "") = some v → jIsObj v = true)
    (k : Nat) (st : SdkState) :
    ∀ v, (chatIter b k st).1 = some v → jIsObj v = true := by
  intro v hv
  rw [chatIter] at hv
  cases hbk : b k with
  | exn msg =>
    rw [hbk] at hv
    dsimp only at hv
    cases hbk2 : b (k + 1) with
    | exn msg2 =>
      rw [chatFallbackCall_exn _ hbk2] at hv
      exact Option.noConfusion hv
    | reply c2 =>
      rw [chatFallbackCall_reply _ hbk2] at hv
      dsimp only at hv
      split at hv
      · dsimp only at hv
        cases hv
        exact isTruthyDict_isObj _ (by assumption)
      · exact Option.noConfusion hv
  | reply c =>
    rw [hbk] at hv
    dsimp only at hv
    split at hv
    · cases hpl : pyJsonLoads (c.getD "") with
      | some w =>
        rw [hpl] at hv
        cases hv
        exact hb k c hbk v hpl
      | none =>
        rw [hpl] at hv
        cases hbk2 : b (k + 1) with
        | exn msg2 =>
          rw [chatFallbackCall_exn _ hbk2] at hv
          exact Option.noConfusion hv
        | reply c2 =>
          rw [chatFallbackCall_reply _ hbk2] at hv
          dsimp only at hv
          split at hv
          · dsimp only at hv
            cases hv
            exact isTruthyDict_isObj _ (by assumption)
          · exact Option.noConfusion hv
    · exact Option.noConfusion hv

theorem chatLoop_obj {b : Backend}
    (hb : ∀ n c, b n = CallOutcome.reply c →
      ∀ v, pyJsonLoads (c.getD "") = some v → jIsObj v = true)
    (iters : Nat) : ∀ (k : Nat) (st : SdkState),
      jIsObj (chatLoop b iters k st).1 = true := by
  induction iters with
  | zero => intro k st; rfl
  | succ n ih =>
    intro k st
    rw [chatLoop]
    rcases hit : chatIter b k st with ⟨r, st1, used⟩
    cases r with
    | some v => exact chatIter_obj hb k st v (by rw [hit])
    | none => exact ih (k + used) st1

theorem agentsStep_obj {b : Backend}
    (hb : ∀ n c, b n = CallOutcome.reply c →
      ∀ v, pyJsonLoads (c.getD "") = some v → jIsObj v = true)
    (k : Nat) (st : SdkState) :
    ∀ v, (agentsStep b k st).1 = some v → jIsObj v = true := by
  intro v hv
  rw [agentsStep] at hv
  cases hbk : b k with
  | exn msg =>
    rw [hbk] at hv
    dsimp only at hv
    cases hbk2 : b (k + 1) with
    | exn msg2 =>
      rw [hbk2] at hv
      dsimp only at hv
      exact Option.noConfusion hv
    | reply c2 =>
      rw [hbk2] at hv
      dsimp only at hv
      split at hv
      · cases hv
        exact isTruthyDict_isObj _ (by assumption)
      · exact Option.noConfusion hv
  | reply c =>
    rw [hbk] at hv
    dsimp only at hv
    split at hv
    · cases hv
      rfl
    · cases hpl : pyJsonLoads (c.getD "") with
      | some w =>
        rw [hpl] at hv
        cases hv
        exact hb k c hbk v hpl
      | none =>
        rw [hpl] at hv
        cases hbk2 : b (k + 1) with
        | exn msg2 =>
          rw [hbk2] at hv
          exact Option.noConfusion hv
        | reply c2 =>
          rw [hbk2] at hv
          dsimp only at hv
          split at hv
          · cases hv
            exact isTruthyDict_isObj _ (by assumption)
          · exact Option.noConfusion hv

theorem max_one_toNat_pos (a : Int) : 1 ≤ (max 1 a).toNat := by
  have h : (1 : Int) ≤ max 1 a := le_max_left 1 a
  omega

/-- C6 counterexample: `run_json` does not always hand back a mapping.
On the json-format path the reply is returned as whatever `json.loads`
produced (sdk.py line 120), so a backend reply `"[1, 2]"` makes
`run_json` return a list, not a dict. -/
theorem C6_counterexample :
    (runJson false true (fun _ => CallOutcome.reply (some "[1, 2]"))
        0 2 initState).1 = JVal.arr [JVal.num 1, JVal.num 2]
    ∧ jIsObj (runJson false true (fun _ => CallOutcome.reply (some "[1, 2]"))
        0 2 initState).1 = false :=
  ⟨rfl, rfl⟩

/-- C6 as amended: `run_json` never propagates a backend failure — every
backend outcome (reply, exception, timeout-as-exception) is handled and
a value is returned; when every call fails it returns the empty mapping
`{}`, with a recorded last error and no recorded raw reply; the return
value is a mapping whenever every json-format reply that parses parses
to a JSON object (a non-object JSON reply is returned as-is, per the
counterexample); and `diagnostics` is a pure read of the two recorded
fields with 200-character truncation, so it never throws. -/
theorem C6_run_json_amended (hA : Bool) (b : Backend) (k : Nat) (a : Int) :
    ((∀ n, (b n).isExn = true) →
      (runJson hA true b k a initState).1 = jEmptyObj
      ∧ (runJson hA true b k a initState).2.1.lastError.isSome = true
      ∧ (runJson hA true b k a initState).2.1.lastRaw = none)
    ∧ ((∀ n c, b n = CallOutcome.reply c →
          ∀ v, pyJsonLoads (c.getD "") = some v → jIsObj v = true) →
        jIsObj (runJson hA true b k a initState).1 = true)
    ∧ (∀ st : SdkState, (diagnostics st).1 = st.lastError
        ∧ ((st.lastRaw = none ∨ st.lastRaw = some "") → (diagnostics st).2 = none)
        ∧ (∀ s, st.lastRaw = some s → s ≠ "" →
            (diagnostics st).2 = some (⟨s.data.take 200⟩ ++ "…"))) := by
  refine ⟨?_, ?_, ?_⟩
  · intro hexn
    have hpos := max_one_toNat_pos a
    rw [runJson]
    cases hA with
    | false =>
      have h := chatLoop_allExn hexn (max 1 a).toNat (k + 0) initState
      exact ⟨h.1, h.2.2 (by omega), h.2.1⟩
    | true =>
      rcases hag : agentsStep b k initState with ⟨r, st1, aused⟩
      have hstep := agentsStep_allExn hexn k initState
      rw [hag] at hstep
      obtain ⟨hr, herr, hraw⟩ := hstep
      dsimp only at hr herr hraw
      subst hr
      have h := chatLoop_allExn hexn (max 1 a).toNat (k + aused) st1
      exact ⟨h.1, h.2.2 (by omega), h.2.1.trans hraw⟩
  · intro hb
    rw [runJson]
    cases hA with
    | false => exact chatLoop_obj hb (max 1 a).toNat (k + 0) initState
    | true =>
      rcases hag : agentsStep b k initState with ⟨r, st1, aused⟩
      cases r with
      | some v => exact agentsStep_obj hb k initState v (by rw [hag])
      | none => exact chatLoop_obj hb (max 1 a).toNat (k + aused) st1
  · intro st
    refine ⟨rfl, ?_, ?_⟩
    · rintro (h | h) <;> simp [diagnostics, h]
    · intro s hs hne
      simp [diagnostics, hs, hne]

/-- Witness for the amended C6: with a backend that always raises,
`run_json` with `attempts = 2` returns `{}`, records an error, and
records no raw reply. -/
theorem C6_run_json_amended_witness :
    (runJson false true (fun _ => CallOutcome.exn "boom") 0 2 initState).1 = jEmptyObj
    ∧ (runJson false true (fun _ => CallOutcome.exn "boom")
        0 2 initState).2.1.lastError.isSome = true :=
  ⟨((C6_run_json_amended false (fun _ => CallOutcome.exn "boom") 0 2).1
      (fun _ => rfl)).1,
   ((C6_run_json_amended false (fun _ => CallOutcome.exn "boom") 0 2).1
      (fun _ => rfl)).2.1⟩

/-! ## C5: the flexible JSON parsing fallback chain -/

/-- C5: `_parse_json_flexible` applies its fallbacks in order and never
raises (it is a total function into JSON values): (a) a present fenced
code block whose stripped body parses wins; (b) otherwise a trimmed
response wrapped in matching object/array delimiters that parses as a
whole is returned; (c) otherwise the span from the first `{` to the
last `}` is parsed when possible; (d) otherwise the empty mapping is
returned (each stage falling through to the next when its parse
attempt fails, per the `try/except: pass` in sdk.py lines 147-174).
Concretely: prose plus a fenced JSON block yields the block's content,
leading prose with one trailing JSON object yields that object via
outer-brace extraction, and a response with no JSON-like substring
yields the empty mapping. -/
theorem C5_parse_flexible_fallback :
    (∀ (text : String) (body : List Char) (v : JVal), text ≠ "" →
      findFenceBody (pyStripL text.data) = some body →
      pyJsonLoadsL (pyStripL body) = some v →
      parseJsonFlexible text = v)
    ∧ (∀ (text : String) (v : JVal), text ≠ "" →
      fenceParsed (pyStripL text.data) = none →
      directDelims (pyStripL text.data) = true →
      pyJsonLoadsL (pyStripL text.data) = some v →
      parseJsonFlexible text = v)
    ∧ (∀ (text : String) (v : JVal), text ≠ "" →
      fenceParsed (pyStripL text.data) = none →
      (directDelims (pyStripL text.data) = false
        ∨ pyJsonLoadsL (pyStripL text.data) = none) →
      (braceSpan (pyStripL text.data)).bind pyJsonLoadsL = some v →
      parseJsonFlexible text = v)
    ∧ (∀ text : String,
      fenceParsed (pyStripL text.data) = none →
      (directDelims (pyStripL text.data) = false
        ∨ pyJsonLoadsL (pyStripL text.data) = none) →
      (braceSpan (pyStripL text.data)).bind pyJsonLoadsL = none →
      parseJsonFlexible text = jEmptyObj)
    ∧ parseJsonFlexible "Here is the result:\n```json\n\x7b\"ok\": true\x7d\n```\nDone."
        = JVal.obj [("ok", JVal.bool true)]
    ∧ parseJsonFlexible "The answer is below.\n\x7b\"a\": 1\x7d"
        = JVal.obj [("a", JVal.num 1)]
    ∧ parseJsonFlexible "no structured content here" = jEmptyObj := by
  have hflexB : ∀ t v, ((braceSpan t).bind pyJsonLoadsL = some v → flexBrace t = v)
      ∧ ((braceSpan t).bind pyJsonLoadsL = none → flexBrace t = jEmptyObj) := by
    intro t v
    constructor
    · intro h
      rw [flexBrace, h]
    · intro h
      rw [flexBrace, h]
  have hflexD : ∀ t v,
      (directDelims t = true → pyJsonLoadsL t = some v → flexDirect t = v)
      ∧ ((directDelims t = false ∨ pyJsonLoadsL t = none) →
          flexDirect t = flexBrace t) := by
    intro t v
    constructor
    · intro hd hl
      rw [flexDirect, if_pos hd, hl]
    · rintro (hd | hl)
      · rw [flexDirect, if_neg (by simp [hd])]
      · rw [flexDirect]
        split
        · rw [hl]
        · rfl
  refine ⟨?_, ?_, ?_, ?_, by rfl, by rfl, by rfl⟩
  · intro text body v hne hfence hparse
    rw [parseJsonFlexible, if_neg hne]
    have hfp : fenceParsed (pyStripL text.data) = some v := by
      rw [fenceParsed, hfence]
      exact hparse
    rw [hfp]
  · intro text v hne hfp hdirect hloads
    rw [parseJsonFlexible, if_neg hne, hfp]
    exact (hflexD _ v).1 hdirect hloads
  · intro text v hne hfp hnd hspan
    rw [parseJsonFlexible, if_neg hne, hfp, (hflexD _ v).2 hnd]
    exact (hflexB _ v).1 hspan
  · intro text hfp hnd hspan
    by_cases hne : text = ""
    · rw [hne]
      rfl
    · rw [parseJsonFlexible, if_neg hne, hfp, (hflexD _ jEmptyObj).2 hnd]
      exact (hflexB _ jEmptyObj).2 hspan

/-- Witness for C5: the fenced-block branch applied at the concrete
prose-plus-fenced-JSON response. -/
theorem C5_parse_flexible_fallback_witness :
    parseJsonFlexible "Take this:\n```JSON\n\x7b\"k\": [1, 2]\x7d\n```\nBye."
      = JVal.obj [("k", JVal.arr [JVal.num 1, JVal.num 2])] :=
  C5_parse_flexible_fallback.1 "Take this:\n```JSON\n\x7b\"k\": [1, 2]\x7d\n```\nBye."
    "\x7b\"k\": [1, 2]\x7d".data (JVal.obj [("k", JVal.arr [JVal.num 1, JVal.num 2])])
    (by decide) rfl rfl

/-! ## C9: sentence trimming -/

theorem enderChar_not_ws {c : Char} (h : isEnderChar c = true) : pyWs c = false := by
  rcases (by simpa [isEnderChar] using h : (c = '.' ∨ c = '!') ∨ c = '?')
    with (rfl | rfl) | rfl <;> rfl

theorem enderChar_not_closer {c : Char} (h : isEnderChar c = true) :
    isCloser c = false := by
  rcases (by simpa [isEnderChar] using h : (c = '.' ∨ c = '!') ∨ c = '?')
    with (rfl | rfl) | rfl <;> rfl

theorem ctw_take {l : List Char} {m : Nat} (h : closersThenWs (l.take m) = true) :
    closersThenWs l = true := by
  induction l generalizing m with
  | nil => simpa using h
  | cons c cs ih =>
    cases m with
    | zero => simp [closersThenWs] at h
    | succ m =>
      rw [List.take_succ_cons] at h
      rw [closersThenWs] at h ⊢
      by_cases hws : pyWs c = true
      · simp [hws]
      · by_cases hcl : isCloser c = true
        · simp only [hws, if_false, hcl, if_true] at h ⊢
          exact ih h
        · simp [hws, hcl] at h

theorem ctw_all_closers {l : List Char} {m : Nat} (h1 : closersThenWs l = true)
    (h2 : closersThenWs (l.take m) = false) :
    ∀ c ∈ l.take m, isCloser c = true := by
  induction l generalizing m with
  | nil => intro c hc; simp at hc
  | cons a cs ih =>
    cases m with
    | zero => intro c hc; simp at hc
    | succ m =>
      rw [List.take_succ_cons] at h2 ⊢
      by_cases hws : pyWs a = true
      · rw [closersThenWs] at h2
        simp [hws] at h2
      · by_cases hcl : isCloser a = true
        · intro c hc
          rcases List.mem_cons.mp hc with rfl | hc2
          · exact hcl
          · have h1n : closersThenWs cs = true := by
              rw [closersThenWs] at h1
              simpa [hws, hcl] using h1
            have h2n : closersThenWs (cs.take m) = false := by
              rw [closersThenWs] at h2
              simpa [hws, hcl] using h2
            exact ih h1n h2n c hc2
        · rw [closersThenWs] at h1
          simp [hws, hcl] at h1

theorem lookahead_take_eq {x : List Char} {m : Nat} (hm : 1 ≤ m)
    (hml : m ≤ x.length) {c : Char} (hc : x[m - 1]? = some c)
    (hccl : isCloser c = false) (_hcws : pyWs c = false) :
    lookaheadOk (x.take m) = lookaheadOk x := by
  have hxtake : (x.take m).isEmpty = false := by
    rcases hx : x.take m with _ | ⟨a, b⟩
    · exfalso
      have hlen := congrArg List.length hx
      rw [List.length_take] at hlen
      simp only [List.length_nil] at hlen
      omega
    · rfl
  have hxne : x.isEmpty = false := by
    rcases hx : x with _ | ⟨a, b⟩
    · rw [hx] at hml; simp at hml; omega
    · rfl
  rw [lookaheadOk, lookaheadOk, hxtake, hxne]
  simp only [Bool.false_or]
  cases hct : closersThenWs (x.take m) with
  | true => rw [ctw_take hct]
  | false =>
    cases hcx : closersThenWs x with
    | false => rfl
    | true =>
      exfalso
      have hall := ctw_all_closers hcx hct
      have hmem : c ∈ x.take m := by
        have h2 : (x.take m)[m - 1]? = some c := by
          rw [List.getElem?_take]
          rw [if_pos (by omega)]
          exact hc
        exact List.getElem?_mem h2
      rw [hall c hmem] at hccl
      exact Bool.noConfusion hccl

theorem isEnderAt_of_lt {t : List Char} {p : Nat} (hp : p < t.length)
    (hpe : isEnderAt t p = true) :
    isEnderChar t[p] = true ∧ lookaheadOk (t.drop (p + 1)) = true := by
  rw [isEnderAt, List.drop_eq_getElem_cons hp] at hpe
  exact Bool.and_eq_true_iff.mp hpe

theorem isEnderAt_take {t : List Char} {p i : Nat} (hp : p < t.length)
    (hpe : isEnderAt t p = true) (hi : i ≤ p) :
    isEnderAt (t.take (p + 1)) i = isEnderAt t i := by
  have hil : i < t.length := by omega
  obtain ⟨hpc, hpl⟩ := isEnderAt_of_lt hp hpe
  have hsplit : (t.take (p + 1)).drop i
      = t[i] :: (t.drop (i + 1)).take (p - i) := by
    rw [List.drop_take, List.drop_eq_getElem_cons hil]
    have heq : p + 1 - i = (p - i) + 1 := by omega
    rw [heq, List.take_succ_cons]
  rw [isEnderAt, isEnderAt, hsplit, List.drop_eq_getElem_cons hil]
  dsimp only
  rcases Nat.eq_or_lt_of_le hi with rfl | hilt
  · rw [Nat.sub_self, List.take_zero, hpc, hpl]
    rfl
  · have hm1 : 1 ≤ p - i := by omega
    have hm2 : p - i ≤ (t.drop (i + 1)).length := by
      rw [List.length_drop]
      omega
    have hcp : (t.drop (i + 1))[p - i - 1]? = some t[p] := by
      rw [List.getElem?_drop]
      have heq2 : i + 1 + (p - i - 1) = p := by omega
      rw [heq2]
      exact List.getElem?_eq_getElem hp
    rw [lookahead_take_eq hm1 hm2 hcp (enderChar_not_closer hpc)
      (enderChar_not_ws hpc)]

theorem enderPositions_take {t : List Char} {p : Nat} (hp : p < t.length)
    (hpe : isEnderAt t p = true) :
    enderPositions (t.take (p + 1))
      = (List.range (p + 1)).filter (fun i => isEnderAt t i) := by
  rw [enderPositions]
  have hlen : (t.take (p + 1)).length = p + 1 := by
    rw [List.length_take]
    omega
  rw [hlen]
  refine List.filter_congr ?_
  intro i hi
  rw [List.mem_range] at hi
  exact isEnderAt_take hp hpe (by omega)

theorem sorted_filter_take (l : List Nat) (hl : l.Pairwise (· < ·)) :
    ∀ (j : Nat) (hj : j < l.length),
      l.filter (fun x => decide (x ≤ l[j])) = l.take (j + 1) := by
  induction l with
  | nil => intro j hj; simp at hj
  | cons a tl ih =>
    rw [List.pairwise_cons] at hl
    intro j hj
    cases j with
    | zero =>
      rw [List.getElem_cons_zero, List.filter_cons, if_pos (by simp)]
      rw [List.take_succ_cons, List.take_zero]
      congr 1
      refine List.filter_eq_nil_iff.mpr ?_
      intro b hb
      have := hl.1 b hb
      simp only [decide_eq_true_eq]
      omega
    | succ j =>
      rw [List.getElem_cons_succ, List.filter_cons, List.take_succ_cons]
      have hjl : j < tl.length := by simpa using hj
      rw [if_pos (by
        simp only [decide_eq_true_eq]
        exact le_of_lt (hl.1 _ (List.getElem_mem hjl)))]
      rw [ih hl.2 j hjl]

theorem range_filter_le (m p : Nat) (hp : p + 1 ≤ m) :
    (List.range m).filter (fun i => decide (i ≤ p)) = List.range (p + 1) := by
  induction m with
  | zero => omega
  | succ m ih =>
    rw [List.range_succ, List.filter_append]
    by_cases hpm : p + 1 ≤ m
    · rw [ih hpm]
      have hm : List.filter (fun i => decide (i ≤ p)) [m] = [] := by
        simp only [List.filter_cons, List.filter_nil, decide_eq_true_eq]
        rw [if_neg (by omega)]
      rw [hm, List.append_nil]
    · have hpm2 : p = m := by omega
      subst hpm2
      have h1 : (List.range p).filter (fun i => decide (i ≤ p)) = List.range p := by
        refine List.filter_eq_self.mpr ?_
        intro a ha
        rw [List.mem_range] at ha
        simp only [decide_eq_true_eq]
        omega
      have h2 : List.filter (fun i => decide (i ≤ p)) [p] = [p] := by
        simp
      rw [h1, h2, ← List.range_succ]

theorem filter_ender_range_eq (t : List Char) (p : Nat) (hp : p < t.length) :
    (List.range (p + 1)).filter (fun i => isEnderAt t i)
      = (enderPositions t).filter (fun x => decide (x ≤ p)) := by
  rw [enderPositions, ← range_filter_le t.length p (by omega)]
  rw [List.filter_filter, List.filter_filter]
  refine List.filter_congr ?_
  intro a _
  exact Bool.and_comm _ _

/-! ### Helper lemmas about stripping for the sentence-trim theorem -/

theorem dropWhile_head_false {p : α → Bool} :
    ∀ {l : List α} {c : α} {xs : List α}, l.dropWhile p = c :: xs → p c = false := by
  intro l
  induction l with
  | nil => intro c xs h; exact List.noConfusion h
  | cons a tl ih =>
    intro c xs h
    rw [List.dropWhile_cons] at h
    by_cases hpa : p a = true
    · rw [if_pos hpa] at h
      exact ih h
    · rw [if_neg hpa] at h
      obtain ⟨rfl, _⟩ := List.cons.inj h
      exact Bool.eq_false_iff.mpr hpa

theorem revDropRev_pre (p : α → Bool) (x : List α) :
    ∃ u, (x.reverse.dropWhile p).reverse ++ u = x := by
  refine ⟨(x.reverse.takeWhile p).reverse, ?_⟩
  have h := List.takeWhile_append_dropWhile p x.reverse
  have h2 := congrArg List.reverse h
  rw [List.reverse_append, List.reverse_reverse] at h2
  exact h2

theorem pyStripL_inf (l : List Char) :
    ∃ u v, u ++ pyStripL l ++ v = l := by
  obtain ⟨v, hv⟩ := revDropRev_pre pyWs (l.dropWhile pyWs)
  refine ⟨l.takeWhile pyWs, v, ?_⟩
  rw [pyStripL, List.append_assoc, hv]
  exact List.takeWhile_append_dropWhile pyWs l

theorem pyStripL_head_nws (l : List Char) (c : Char)
    (hc : (pyStripL l).head? = some c) : pyWs c = false := by
  obtain ⟨v, hv⟩ := revDropRev_pre pyWs (l.dropWhile pyWs)
  rcases hs : pyStripL l with _ | ⟨a, xs⟩
  · rw [hs] at hc; exact Option.noConfusion hc
  · rw [hs] at hc
    rw [List.head?_cons] at hc
    obtain rfl := Option.some.inj hc
    rw [pyStripL] at hs
    rw [hs] at hv
    rcases hd : l.dropWhile pyWs with _ | ⟨b, ys⟩
    · rw [hd] at hv
      exact (List.append_ne_nil_of_left_ne_nil (List.cons_ne_nil a xs) v hv).elim
    · rw [hd] at hv
      have hb : b = a := by
        have := congrArg List.head? hv
        rw [List.cons_append, List.head?_cons, List.head?_cons] at this
        exact (Option.some.inj this).symm
      subst hb
      exact dropWhile_head_false hd

theorem pyStripL_last_nws (l : List Char) (c : Char)
    (hc : (pyStripL l).getLast? = some c) : pyWs c = false := by
  have hrev : (pyStripL l).reverse = (l.dropWhile pyWs).reverse.dropWhile pyWs := by
    rw [pyStripL, List.reverse_reverse]
  rw [← List.head?_reverse] at hc
  rw [hrev] at hc
  rcases hd : (l.dropWhile pyWs).reverse.dropWhile pyWs with _ | ⟨b, ys⟩
  · rw [hd] at hc; exact Option.noConfusion hc
  · rw [hd, List.head?_cons] at hc
    obtain rfl := Option.some.inj hc
    exact dropWhile_head_false hd

theorem pyStripL_eq_self (l : List Char)
    (hh : ∀ c, l.head? = some c → pyWs c = false)
    (hl : ∀ c, l.getLast? = some c → pyWs c = false) :
    pyStripL l = l := by
  rcases l with _ | ⟨a, tl⟩
  · rfl
  · have ha : pyWs a = false := hh a rfl
    have hd : (a :: tl).dropWhile pyWs = a :: tl := by
      rw [List.dropWhile_cons, if_neg (by rw [ha]; exact Bool.false_ne_true)]
    rw [pyStripL, hd]
    rcases hr : (a :: tl).reverse with _ | ⟨b, ys⟩
    · exfalso
      have := congrArg List.length hr
      rw [List.length_reverse] at this
      exact List.noConfusion (List.eq_nil_of_length_eq_zero this)
    · have hb : pyWs b = false := by
        refine hl b ?_
        rw [← List.head?_reverse, hr, List.head?_cons]
      have hds : List.dropWhile pyWs (b :: ys) = b :: ys := by
        rw [List.dropWhile_cons, if_neg (by rw [hb]; exact Bool.false_ne_true)]
      rw [hds, ← hr, List.reverse_reverse]

theorem take_head (l : List α) (k : Nat) (hk : 1 ≤ k) :
    (l.take k).head? = l.head? := by
  rcases l with _ | ⟨a, tl⟩
  · rw [List.take_nil]
  · rcases k with _ | m
    · omega
    · rw [List.take_succ_cons, List.head?_cons, List.head?_cons]

theorem getLast_take_succ (l : List α) (p : Nat) (hp : p < l.length) :
    (l.take (p + 1)).getLast? = l[p]? := by
  rw [List.getLast?_eq_getElem?]
  have hlen : (l.take (p + 1)).length = p + 1 := by
    rw [List.length_take]
    omega
  rw [hlen]
  have : p + 1 - 1 = p := by omega
  rw [this, List.getElem?_take, if_pos (by omega)]

/-- The full behaviour of `_trim_to_sentences` needed for C9: the result is an
infix (contiguous substring) of the input, contains at most `n` sentence-ender
matches, and when the stripped input already has at most `n` matches it is
returned unchanged. -/
theorem trimToSentencesL_spec (l : List Char) (n : Nat) (hn : 1 ≤ n) :
    (∃ u v, u ++ trimToSentencesL l n ++ v = l) ∧
    (enderPositions (trimToSentencesL l n)).length ≤ n ∧
    ((enderPositions (pyStripL l)).length ≤ n → trimToSentencesL l n = pyStripL l) := by
  by_cases h1 : (pyStripL l).isEmpty
  · rw [trimToSentencesL, if_pos h1]
    refine ⟨pyStripL_inf l, ?_, fun _ => rfl⟩
    rw [List.isEmpty_iff.mp h1]
    simp [enderPositions]
  · by_cases h2 : (enderPositions (pyStripL l)).isEmpty
    · rw [trimToSentencesL, if_neg h1, if_pos h2]
      refine ⟨pyStripL_inf l, ?_, fun _ => rfl⟩
      rw [List.isEmpty_iff.mp h2]
      exact Nat.zero_le n
    · by_cases h3 : (enderPositions (pyStripL l)).length ≤ n
      · rw [trimToSentencesL, if_neg h1, if_neg h2, if_pos h3]
        exact ⟨pyStripL_inf l, h3, fun _ => rfl⟩
      · have hn0 : ¬ n = 0 := by omega
        have hj : n - 1 < (enderPositions (pyStripL l)).length := by omega
        rw [trimToSentencesL, if_neg h1, if_neg h2, if_neg h3, if_neg hn0]
        have hgetD : (enderPositions (pyStripL l)).getD (n - 1) 0
            = (enderPositions (pyStripL l))[n - 1] := List.getD_eq_getElem _ _ hj
        rw [hgetD]
        obtain ⟨p, hp⟩ : ∃ p, (enderPositions (pyStripL l))[n - 1] = p := ⟨_, rfl⟩
        rw [hp]
        have hmem : p ∈ enderPositions (pyStripL l) := hp ▸ List.getElem_mem hj
        rw [enderPositions] at hmem
        obtain ⟨hrange, hender⟩ := List.mem_filter.mp hmem
        rw [List.mem_range] at hrange
        have hender2 : isEnderAt (pyStripL l) p = true := hender
        have hstrip : pyStripL ((pyStripL l).take (p + 1)) = (pyStripL l).take (p + 1) := by
          refine pyStripL_eq_self _ ?_ ?_
          · intro c hc
            refine pyStripL_head_nws l c ?_
            rw [← take_head (pyStripL l) (p + 1) (by omega)]
            exact hc
          · intro c hc
            rw [getLast_take_succ _ p hrange, List.getElem?_eq_getElem hrange] at hc
            obtain rfl := Option.some.inj hc
            exact enderChar_not_ws (isEnderAt_of_lt hrange hender2).1
        have hA := enderPositions_take hrange hender2
        have hB := filter_ender_range_eq (pyStripL l) p hrange
        have hpair : (enderPositions (pyStripL l)).Pairwise (· < ·) := by
          rw [enderPositions]
          exact List.Pairwise.sublist (List.filter_sublist _) (List.pairwise_lt_range _)
        have hC := sorted_filter_take (enderPositions (pyStripL l)) hpair (n - 1) hj
        rw [hp] at hC
        have hchain := hA.trans (hB.trans hC)
        refine ⟨?_, ?_, fun hcnt => absurd hcnt h3⟩
        · obtain ⟨u, v, huv⟩ := pyStripL_inf l
          refine ⟨u, (pyStripL l).drop (p + 1) ++ v, ?_⟩
          rw [hstrip]
          have hsplit2 : (pyStripL l).take (p + 1) ++ ((pyStripL l).drop (p + 1) ++ v)
              = pyStripL l ++ v := by
            rw [← List.append_assoc, List.take_append_drop]
          rw [List.append_assoc, hsplit2, ← List.append_assoc]
          exact huv
        · rw [hstrip, hchain, List.length_take]
          omega

/-- C9: for every input string and positive sentence limit `n`,
`_trim_to_sentences` returns a contiguous substring of its input with at most
`n` sentence-ender matches (an ender is `.`, `!` or `?` whose lookahead
tolerates trailing closing quotes/brackets), and when the stripped input has at
most `n` such matches it is returned unchanged. -/
theorem C9_trim_sentences (s : String) (n : Nat) (hn : 1 ≤ n) :
    (∃ u v, u ++ (trimToSentences s n).data ++ v = s.data) ∧
    (enderPositions (trimToSentences s n).data).length ≤ n ∧
    ((enderPositions (pyStripL s.data)).length ≤ n → trimToSentences s n = pyStrip s) := by
  have h := trimToSentencesL_spec s.data n hn
  refine ⟨h.1, h.2.1, fun hc => ?_⟩
  rw [trimToSentences, pyStrip, h.2.2 hc]

theorem C9_trim_sentences_witness :
    (∃ u v, u ++ (trimToSentences "One. Two. Three." 2).data ++ v
        = ("One. Two. Three." : String).data) ∧
    (enderPositions (trimToSentences "One. Two. Three." 2).data).length ≤ 2 ∧
    ((enderPositions (pyStripL ("One. Two. Three." : String).data)).length ≤ 2 →
      trimToSentences "One. Two. Three." 2 = pyStrip "One. Two. Three.") :=
  C9_trim_sentences "One. Two. Three." 2 (by decide)

end CCA
